import Mathlib

/-!
funck: an evaluator for an untyped lambda calculus.

A verification development over `src/main.cpp`.  The program reads lines in the
concrete syntax `%x.body` (abstraction) and `<f + a>` (application), parses them
by recursive descent, and reduces them by capture-avoiding substitution.

Modelling decisions.

* `Expr` is the closed sum of the three node classes `Var`, `Lambda`, `App`.
  Trees are immutable in the program (`clone` builds a structurally equal copy),
  so `clone` is the identity on the model and null pointers do not occur inside
  a tree.
* `std::string` is `String`, `std::set<std::string>` is `Finset String`.
* The process-wide `name_counter` (a `std::map<std::string, int>` whose
  `operator[]` yields `0` for an absent key) is a function `String → Nat` that is
  passed in and returned explicitly.  The C++ counter is an `int`; incrementing
  it beyond `INT_MAX` is undefined behaviour, so the model describes the runs in
  which that does not happen.
* Functions whose recursion is not structural carry a fuel argument; `none`
  then means that the fuel ran out, and totality is proved separately.
-/

namespace Funck

/-! ## Expression model (`class Expr`, `Var`, `Lambda`, `App`) -/

/-- The expression tree: `Var(name)`, `Lambda(param, body)`, `App(func, arg)`. -/
inductive Expr where
  | var (name : String) : Expr
  | lambda (param : String) (body : Expr) : Expr
  | app (func : Expr) (arg : Expr) : Expr
  deriving DecidableEq

/-- Number of nodes of a tree. -/
def Expr.size : Expr → Nat
  | .var _ => 1
  | .lambda _ b => b.size + 1
  | .app f a => f.size + a.size + 1

/-- The text written by the `print` methods: `Var` writes its name, `Lambda` writes
`"% " param " . " body`, `App` writes `"<" func " + " arg ">"`. -/
def Expr.print : Expr → List Char
  | .var name => name.data
  | .lambda param body => ['%', ' '] ++ param.data ++ [' ', '.', ' '] ++ body.print
  | .app func arg => ['<'] ++ func.print ++ [' ', '+', ' '] ++ arg.print ++ ['>']

/-! ## Fresh-name generator (`name_counter`, `fresh_name`) -/

/-- The state of `name_counter`: the counter stored for every base name
(`0` for a base that has no entry yet). -/
abbrev NameCounter := String → Nat

/-- The counter state at program start: the map is empty. -/
def NameCounter.initial : NameCounter := fun _ => 0

/-- Embedding of `fresh_name`: `int &cnt = name_counter[base]; cnt++;
return base + std::to_string(cnt);`.  Returns the name and the new state. -/
def fresh_name (base : String) (name_counter : NameCounter) : String × NameCounter :=
  let cnt := name_counter base + 1
  (base ++ Nat.repr cnt, Function.update name_counter base cnt)

/-! ## Parser (`skip_space`, `parse_var`, `parse_lambda`, `parse_app`, `parse_expr`)

An iterator pair `(it, end)` over one string is modelled by the characters from
`it` up to `end`; two positions in the same string are equal exactly when these
remainders are equal.  A parse function returns the tree (`none` for `nullptr`)
and the position it stopped at. -/

/-- The characters `skip_space` steps over: space, tab, line feed, carriage return. -/
def isSpaceChar (ch : Char) : Bool := ch = ' ' || ch = '\t' || ch = '\n' || ch = '\r'

/-- The test `isalpha(*it) || *it == '_'` on the first character of a name. -/
def isIdentStart (ch : Char) : Bool := ch.isAlpha || ch = '_'

/-- The test `isalnum(*it) || *it == '_'` on the following characters of a name. -/
def isIdentChar (ch : Char) : Bool := ch.isAlphanum || ch = '_'

/-- Embedding of `skip_space`. -/
def skip_space : List Char → List Char
  | [] => []
  | ch :: rest => if isSpaceChar ch then skip_space rest else ch :: rest

/-- Embedding of `parse_var`. -/
def parse_var (it : List Char) : Option Expr × List Char :=
  match skip_space it with
  | [] => (none, [])
  | ch :: rest =>
      if !isIdentStart ch then (none, ch :: rest)
      else
        (some (.var (String.mk ((ch :: rest).takeWhile isIdentChar))),
          (ch :: rest).dropWhile isIdentChar)

/-- Embedding of `parse_lambda`; the mutually recursive `parse_expr` is the first
argument (its outer `none` means that the recursion bound was reached). -/
def parse_lambda (parse_expr : List Char → Option (Option Expr × List Char))
    (it : List Char) : Option (Option Expr × List Char) :=
  let save := it
  match skip_space it with
  | [] => some (none, save)
  | ch :: it1 =>
      if ch ≠ '%' then some (none, save)
      else
        match parse_var it1 with
        | (none, _) => some (none, save)
        | (some param, it2) =>
            match skip_space it2 with
            | [] => some (none, save)
            | ch2 :: it3 =>
                if ch2 ≠ '.' then some (none, save)
                else
                  match parse_expr it3 with
                  | none => none
                  | some (none, _) => some (none, save)
                  | some (some lambda_body, body_end) =>
                      match param with
                      | .var param_name =>
                          some (some (.lambda param_name lambda_body), body_end)
                      | _ => some (none, save)

/-- Embedding of `parse_app`; `parse_expr` is the first argument as in `parse_lambda`. -/
def parse_app (parse_expr : List Char → Option (Option Expr × List Char))
    (it : List Char) : Option (Option Expr × List Char) :=
  let save := it
  match skip_space it with
  | [] => some (none, save)
  | ch :: it1 =>
      if ch ≠ '<' then some (none, save)
      else
        match parse_expr it1 with
        | none => none
        | some (none, _) => some (none, save)
        | some (some func, it2) =>
            match skip_space it2 with
            | [] => some (none, save)
            | ch2 :: it3 =>
                if ch2 ≠ '+' then some (none, save)
                else
                  match parse_expr it3 with
                  | none => none
                  | some (none, _) => some (none, save)
                  | some (some arg, it4) =>
                      match skip_space it4 with
                      | [] => some (none, save)
                      | ch3 :: it5 =>
                          if ch3 ≠ '>' then some (none, save)
                          else some (some (.app func arg), it5)

/-- Embedding of `parse_expr` with a bound `fuel` on the nesting depth
(outer `none`: the bound was reached). -/
def parse_expr_fuel : Nat → List Char → Option (Option Expr × List Char)
  | 0, _ => none
  | fuel + 1, it =>
      match skip_space it with
      | [] => some (none, [])
      | ch :: rest =>
          if ch = '%' then parse_lambda (parse_expr_fuel fuel) (ch :: rest)
          else if ch = '<' then parse_app (parse_expr_fuel fuel) (ch :: rest)
          else some (parse_var (ch :: rest))

/-- The function `parse_expr` of the program.  Every recursive call is on a strictly
shorter remainder, so a fuel above the length of the input is never used up. -/
def parse_expr (it : List Char) : Option Expr × List Char :=
  (parse_expr_fuel (it.length + 1) it).getD (none, it)

/-! ## Free-variable analysis (`collect_free_vars`) -/

/-- Embedding of `collect_free_vars(expr, free_vars, bound_vars)`.  The accumulator
`free_vars` is passed by reference in the program and is returned here;
`bound_vars` is passed by value, so the `bound_vars.erase(param)` after the
recursive call acts on a local copy that is not read again. -/
def collect_free_vars : Expr → Finset String → Finset String → Finset String
  | .var name, free_vars, bound_vars =>
      if name ∈ bound_vars then free_vars else insert name free_vars
  | .lambda param body, free_vars, bound_vars =>
      collect_free_vars body free_vars (insert param bound_vars)
  | .app func arg, free_vars, bound_vars =>
      collect_free_vars arg (collect_free_vars func free_vars bound_vars) bound_vars

/-- The set `free_in_arg` that `substitute` computes: `collect_free_vars(arg, free_in_arg)`
on an empty accumulator with the default empty `bound_vars`. -/
def free_in (arg : Expr) : Finset String := collect_free_vars arg ∅ ∅

/-! ## Capture-avoiding substitution (`substitute`) -/

/-- Embedding of `substitute(expr, var, arg)` with the counter state threaded through
and a bound `fuel` on the depth of the recursion (`none`: the bound was reached). -/
def substituteFuel : Nat → Expr → String → Expr → NameCounter → Option (Expr × NameCounter)
  | 0, _, _, _, _ => none
  | _ + 1, .var name, var, arg, c => some (if name = var then arg else .var name, c)
  | fuel + 1, .lambda param body, var, arg, c =>
      if param = var then some (.lambda param body, c)
      else if param ∈ free_in arg then
        match substituteFuel fuel body param (.var (fresh_name param c).1) (fresh_name param c).2 with
        | none => none
        | some (renamed_body, c2) =>
            substituteFuel fuel (.lambda (fresh_name param c).1 renamed_body) var arg c2
      else
        match substituteFuel fuel body var arg c with
        | none => none
        | some (new_body, c1) => some (.lambda param new_body, c1)
  | fuel + 1, .app func arg', var, arg, c =>
      match substituteFuel fuel func var arg c with
      | none => none
      | some (new_func, c1) =>
          match substituteFuel fuel arg' var arg c1 with
          | none => none
          | some (new_arg, c2) => some (.app new_func new_arg, c2)

/-- Total length of the variable names occurring in a tree; every name that is free
in the tree is at most this long. -/
def Expr.nameLen : Expr → Nat
  | .var name => name.length
  | .lambda _ body => body.nameLen
  | .app func arg => func.nameLen + arg.nameLen

/-- A recursion depth that `substitute(expr, var, arg)` never exceeds. -/
def substituteBound (expr arg : Expr) : Nat := (arg.nameLen + 3) * expr.size

/-- The function `substitute` of the program: `substituteFuel` run with a fuel that
is proved sufficient (`substituteFuel_total`). -/
def substitute (expr : Expr) (var : String) (arg : Expr) (c : NameCounter) :
    Expr × NameCounter :=
  (substituteFuel (substituteBound expr arg) expr var arg c).getD (expr, c)

/-! ## Evaluator (`eval`) -/

/-- The binding environment `std::map<std::string, std::shared_ptr<Expr>>`:
`env.find(name)` is `env name`, and `none` stands for `env.end()`. -/
abbrev Env := String → Option Expr

/-- The environment without bindings. -/
def Env.empty : Env := fun _ => none

/-- The environment after `env[name] = bound`: the binding for `name` is set or
overwritten, every other binding is kept. -/
def Env.bind (env : Env) (name : String) (bound : Expr) : Env :=
  fun key => if key = name then some bound else env key

/-- The outcome of `std::dynamic_pointer_cast<Lambda>(expr)` as a test. -/
def Expr.isLambda : Expr → Bool
  | .lambda _ _ => true
  | _ => false

/-- Embedding of `eval(expr, env)` with the counter state threaded through (the
beta step calls `substitute`) and a bound `fuel` on the depth of the recursion;
`none` means that the bound was reached.  The program has no such bound: a run
of `eval` returns `res` exactly when some fuel gives `some res`. -/
def eval_fuel : Nat → Expr → Env → NameCounter → Option (Expr × NameCounter)
  | 0, _, _, _ => none
  | fuel + 1, .var name, env, c =>
      match env name with
      | some bound => eval_fuel fuel bound env c
      | none => some (.var name, c)
  | _ + 1, .lambda param body, _, c => some (.lambda param body, c)
  | fuel + 1, .app func arg, env, c =>
      match eval_fuel fuel func env c with
      | none => none
      | some (evaluated_func, c1) =>
          match eval_fuel fuel arg env c1 with
          | none => none
          | some (evaluated_arg, c2) =>
              match evaluated_func with
              | .lambda param body =>
                  eval_fuel fuel (substitute body param evaluated_arg c2).1 env
                    (substitute body param evaluated_arg c2).2
              | _ => some (.app evaluated_func evaluated_arg, c2)

/-- The call `eval(expr, env)`, started with counter state `c`, returns: it yields
the tree `res.1` and leaves the counter state `res.2`. -/
def Evaluates (expr : Expr) (env : Env) (c : NameCounter) (res : Expr × NameCounter) : Prop :=
  ∃ fuel, eval_fuel fuel expr env c = some res

/-! ## Specification-level notions -/

/-- The free identifiers of a tree, by the textbook equations. -/
def Expr.freeVars : Expr → Finset String
  | .var name => {name}
  | .lambda param body => body.freeVars.erase param
  | .app func arg => func.freeVars ∪ arg.freeVars

/-- Measure used in the termination proof of `substitute` for a replacement
`Var(v)`: an abstraction whose parameter differs from `v` is not renamed again. -/
def renameSlack (v : String) : Expr → Nat
  | .lambda param _ => if param = v then 0 else 1
  | _ => 0

/-- Measure used in the termination proof of `substitute`: every rename makes the
parameter longer, and a parameter of length `K` or more is not free in the
replacement. -/
def paramSlack (K : Nat) : Expr → Nat
  | .lambda param _ => min param.length K
  | _ => 0

/-- The renames performed by the call `substitute(expr, var, arg)` are all fresh:
whenever the call, or one of its recursive calls, replaces the parameter of an
abstraction by a name obtained from `fresh_name`, that name is not free in the
abstraction.  (`fresh_name` itself does not look at the names in use.)  The five
rules follow the five paths through `substitute`. -/
inductive RenamesFresh : Expr → String → Expr → NameCounter → Prop where
  | var (name var : String) (arg : Expr) (c : NameCounter) :
      RenamesFresh (.var name) var arg c
  | shadow (param : String) (body arg : Expr) (c : NameCounter) :
      RenamesFresh (.lambda param body) param arg c
  | rename {param var : String} {body arg : Expr} {c : NameCounter} :
      param ≠ var → param ∈ free_in arg →
      (fresh_name param c).1 ∉ (Expr.lambda param body).freeVars →
      RenamesFresh body param (.var (fresh_name param c).1) (fresh_name param c).2 →
      RenamesFresh
        (.lambda (fresh_name param c).1
          (substitute body param (.var (fresh_name param c).1) (fresh_name param c).2).1)
        var arg
        (substitute body param (.var (fresh_name param c).1) (fresh_name param c).2).2 →
      RenamesFresh (.lambda param body) var arg c
  | descend {param var : String} {body arg : Expr} {c : NameCounter} :
      param ≠ var → param ∉ free_in arg →
      RenamesFresh body var arg c →
      RenamesFresh (.lambda param body) var arg c
  | app {func arg' : Expr} {var : String} {arg : Expr} {c : NameCounter} :
      RenamesFresh func var arg c →
      RenamesFresh arg' var arg (substitute func var arg c).2 →
      RenamesFresh (.app func arg') var arg c

/-- Whether the call `substitute(expr, var, arg)` reaches an abstraction that it
renames: an abstraction whose parameter is free in `arg`, lying outside every
abstraction whose parameter is `var` (such subtrees are returned as they are). -/
def renameNeeded (var : String) (arg : Expr) : Expr → Bool
  | .var _ => false
  | .lambda param body =>
      if param = var then false else decide (param ∈ arg.freeVars) || renameNeeded var arg body
  | .app func arg' => renameNeeded var arg func || renameNeeded var arg arg'

/-- Following the spec's words: `expr` with exactly the free occurrences of `var`
replaced by `arg`; a subtree under an abstraction whose parameter is `var` is
returned unchanged, and every abstraction parameter is kept. -/
def replaceFree (var : String) (arg : Expr) : Expr → Expr
  | .var name => if name = var then arg else .var name
  | .lambda param body =>
      if param = var then .lambda param body else .lambda param (replaceFree var arg body)
  | .app func arg' => .app (replaceFree var arg func) (replaceFree var arg arg')

/-- The identifier grammar `(alpha | '_') (alnum | '_')*`. -/
def isIdentifier (name : String) : Bool :=
  match name.data with
  | [] => false
  | ch :: rest => isIdentStart ch && rest.all isIdentChar

/-- Every variable name and every abstraction parameter of the tree is an identifier. -/
def Expr.wellFormed : Expr → Bool
  | .var name => isIdentifier name
  | .lambda param body => isIdentifier param && body.wellFormed
  | .app func arg => func.wellFormed && arg.wellFormed

/-- The remainder does not continue an identifier: it is empty or starts with a
character that is neither alphanumeric nor `'_'`. -/
def noIdentAhead : List Char → Bool
  | [] => true
  | ch :: _ => !isIdentChar ch

/-- Weak normal form relative to `env`: an abstraction, or a variable without a
binding in `env`, or an application whose function part is not an abstraction
and whose two parts are in weak normal form. -/
def weakNormal (env : Env) : Expr → Bool
  | .var name => (env name).isNone
  | .lambda _ _ => true
  | .app func arg => !func.isLambda && weakNormal env func && weakNormal env arg

/-- A chain of bindings `n1 = n2`, `n2 = n3`, ..., `nk = v` in `env`, given by the
list of the names `n1, ..., nk` and the final tree `v`. -/
def bindingChain (env : Env) : List String → Expr → Prop
  | [], _ => False
  | [name], v => env name = some v
  | name :: next :: rest, v => env name = some (.var next) ∧ bindingChain env (next :: rest) v

/-- The name ends in a decimal digit, as every name returned by `fresh_name` does. -/
def endsInDigit (name : String) : Bool :=
  match name.data.getLast? with
  | some ch => ch.isDigit
  | none => false

/-- The number written by a list of decimal digits (most significant first). -/
def decimalValue (digits : List Char) : Nat :=
  digits.foldl (fun acc ch => acc * 10 + (ch.toNat - 48)) 0

/-- Every identifier occurring in the tree, as a variable or as a parameter. -/
def Expr.allNames : Expr → Finset String
  | .var name => {name}
  | .lambda param body => insert param body.allNames
  | .app func arg => func.allNames ∪ arg.allNames

/-- A name that cannot collide with a later result of `fresh_name` in counter state
`c`: it does not end in a digit, or it is the name already generated from a base
`p` (not ending in a digit) at a counter value `k` that `c` has reached. -/
def settledName (c : NameCounter) (name : String) : Prop :=
  endsInDigit name = false ∨
    ∃ p k, endsInDigit p = false ∧ k ≤ c p ∧ name = p ++ Nat.repr k

/-- The self-application `<%x.<x + x> + %x.<x + x>>` over the parameter name `x`. -/
def omegaTerm (x : String) : Expr :=
  .app (.lambda x (.app (.var x) (.var x))) (.lambda x (.app (.var x) (.var x)))

/-- The top-level check of `main` on a parsed line:
`result.first && result.second == line.end()`. -/
def parsed_whole (line : List Char) : Bool :=
  (parse_expr line).1.isSome && (parse_expr line).2.isEmpty

lemma collect_free_vars_eq (e : Expr) (acc B : Finset String) :
    collect_free_vars e acc B = acc ∪ (e.freeVars \ B) := by
  induction e generalizing acc B with
  | var name =>
      ext z
      by_cases h : name ∈ B
      · simp only [collect_free_vars, Expr.freeVars, h, if_true, Finset.mem_union,
          Finset.mem_sdiff, Finset.mem_singleton]
        constructor
        · exact fun hz => Or.inl hz
        · rintro (hz | ⟨rfl, hn⟩)
          · exact hz
          · exact absurd h hn
      · simp only [collect_free_vars, Expr.freeVars, h, if_false, Finset.mem_insert,
          Finset.mem_union, Finset.mem_sdiff, Finset.mem_singleton]
        constructor
        · rintro (rfl | hz)
          · exact Or.inr ⟨rfl, h⟩
          · exact Or.inl hz
        · rintro (hz | ⟨rfl, _⟩)
          · exact Or.inr hz
          · exact Or.inl rfl
  | lambda param body ih =>
      rw [collect_free_vars, ih]
      ext z
      simp only [Expr.freeVars, Finset.mem_union, Finset.mem_sdiff, Finset.mem_insert,
        Finset.mem_erase]
      tauto
  | app func arg ihf iha =>
      rw [collect_free_vars, iha, ihf]
      ext z
      simp only [Expr.freeVars, Finset.mem_union, Finset.mem_sdiff]
      tauto

lemma free_in_eq (e : Expr) : free_in e = e.freeVars := by
  simp [free_in, collect_free_vars_eq]

/-! ## Fresh names are longer than their base -/

lemma repr_length_pos (n : Nat) : 0 < (Nat.repr n).length := by
  simp only [Nat.repr, Nat.toDigits, String.length, List.asString, Nat.toDigitsCore]
  split
  · simp
  · rw [Nat.toDigitsCore_lens_eq]
    exact Nat.succ_pos _

lemma fresh_name_length (base : String) (c : NameCounter) :
    base.length < (fresh_name base c).1.length := by
  have := repr_length_pos (c base + 1)
  simp only [fresh_name, String.length_append]
  omega

lemma fresh_name_ne (base : String) (c : NameCounter) : (fresh_name base c).1 ≠ base := by
  intro h
  have := fresh_name_length base c
  rw [h] at this
  exact Nat.lt_irrefl _ this

lemma length_le_nameLen {p : String} {r : Expr} (h : p ∈ r.freeVars) :
    p.length ≤ r.nameLen := by
  induction r with
  | var name =>
      simp only [Expr.freeVars, Finset.mem_singleton] at h
      simp [Expr.nameLen, h]
  | lambda param body ih =>
      simp only [Expr.freeVars, Finset.mem_erase] at h
      exact ih h.2
  | app func arg ihf iha =>
      simp only [Expr.freeVars, Finset.mem_union] at h
      simp only [Expr.nameLen]
      rcases h with h | h
      · exact Nat.le_trans (ihf h) (Nat.le_add_right _ _)
      · exact Nat.le_trans (iha h) (Nat.le_add_left _ _)

/-! ## Decimal rendering: `std::to_string` on the counter -/

lemma digitChar_isDigit (m : Nat) (h : m < 10) : (Nat.digitChar m).isDigit = true := by
  interval_cases m <;> rfl

lemma digitChar_value (m : Nat) (h : m < 10) : (Nat.digitChar m).toNat - 48 = m := by
  interval_cases m <;> rfl

lemma toDigitsCore_append (fuel n : Nat) (ds : List Char) :
    Nat.toDigitsCore 10 fuel n ds = Nat.toDigitsCore 10 fuel n [] ++ ds := by
  induction fuel generalizing n ds with
  | zero => simp [Nat.toDigitsCore]
  | succ f ih =>
      simp only [Nat.toDigitsCore]
      split_ifs
      · simp
      · rw [ih (n / 10) (Nat.digitChar (n % 10) :: ds), ih (n / 10) [Nat.digitChar (n % 10)]]
        simp

lemma toDigitsCore_isDigit (fuel n : Nat) :
    ∀ ch ∈ Nat.toDigitsCore 10 fuel n [], ch.isDigit = true := by
  induction fuel generalizing n with
  | zero => simp [Nat.toDigitsCore]
  | succ f ih =>
      intro ch hch
      simp only [Nat.toDigitsCore] at hch
      have hd := digitChar_isDigit (n % 10) (Nat.mod_lt _ (by decide))
      split_ifs at hch
      · simp only [List.mem_singleton] at hch
        rw [hch]
        exact hd
      · rw [toDigitsCore_append] at hch
        simp only [List.mem_append, List.mem_singleton] at hch
        rcases hch with h | h
        · exact ih _ ch h
        · rw [h]
          exact hd

lemma decimalValue_toDigitsCore (fuel n : Nat) (h : n < fuel) :
    decimalValue (Nat.toDigitsCore 10 fuel n []) = n := by
  induction fuel generalizing n with
  | zero => exact absurd h (Nat.not_lt_zero _)
  | succ f ih =>
      simp only [Nat.toDigitsCore]
      have hv := digitChar_value (n % 10) (Nat.mod_lt _ (by decide))
      split_ifs with h0
      · simp only [decimalValue, List.foldl_cons, List.foldl_nil, hv]
        omega
      · rw [toDigitsCore_append]
        have hrec := ih (n / 10) (by omega)
        simp only [decimalValue] at hrec
        simp only [decimalValue, List.foldl_append, List.foldl_cons, List.foldl_nil, hrec, hv]
        omega

lemma repr_isDigit (k : Nat) : ∀ ch ∈ (Nat.repr k).data, ch.isDigit = true :=
  toDigitsCore_isDigit (k + 1) k

lemma repr_injective {k1 k2 : Nat} (h : Nat.repr k1 = Nat.repr k2) : k1 = k2 := by
  have h1 := decimalValue_toDigitsCore (k1 + 1) k1 (Nat.lt_succ_self _)
  have h2 := decimalValue_toDigitsCore (k2 + 1) k2 (Nat.lt_succ_self _)
  have hd : (Nat.repr k1).data = (Nat.repr k2).data := by rw [h]
  simp only [Nat.repr, Nat.toDigits, List.asString] at hd
  rw [hd] at h1
  exact h1.symm.trans h2

lemma repr_data_ne_nil (k : Nat) : (Nat.repr k).data ≠ [] := by
  intro h
  have := repr_length_pos k
  simp [String.length, h] at this

/-! ## Names that end in a digit and names that do not -/

lemma endsInDigit_append_digits (base : String) (k : Nat) :
    endsInDigit (base ++ Nat.repr k) = true := by
  have hlast : (base ++ Nat.repr k).data.getLast?
      = some ((Nat.repr k).data.getLast (repr_data_ne_nil k)) := by
    rw [String.data_append, List.getLast?_append_of_ne_nil _ (repr_data_ne_nil k),
      List.getLast?_eq_getLast _ (repr_data_ne_nil k)]
  simp only [endsInDigit, hlast]
  exact repr_isDigit k _ (List.getLast_mem _)

lemma endsInDigit_fresh_name (base : String) (c : NameCounter) :
    endsInDigit (fresh_name base c).1 = true :=
  endsInDigit_append_digits base _

/-- A name splits in one way only into a part that does not end in a digit and a
run of digits. -/
lemma append_digits_unique {p q : String} {d1 d2 : List Char}
    (hp : endsInDigit p = false) (hq : endsInDigit q = false)
    (h1 : ∀ ch ∈ d1, ch.isDigit = true) (h2 : ∀ ch ∈ d2, ch.isDigit = true)
    (h : p.data ++ d1 = q.data ++ d2) : p = q ∧ d1 = d2 := by
  have key : ∀ (l1 l2 e1 e2 : List Char), (∀ ch ∈ e1, ch.isDigit = true) →
      (∀ ch, l2.getLast? = some ch → ch.isDigit = false) →
      ∀ a, l2 = l1 ++ a → e1 = a ++ e2 → a = [] := by
    intro l1 l2 e1 e2 he1 hl2 a hl he
    by_contra hne
    have hmem : a.getLast hne ∈ e1 := by
      rw [he]
      exact List.mem_append_left _ (List.getLast_mem hne)
    have hlast : l2.getLast? = some (a.getLast hne) := by
      rw [hl, List.getLast?_append_of_ne_nil _ hne, List.getLast?_eq_getLast _ hne]
    have := hl2 _ hlast
    rw [he1 _ hmem] at this
    exact Bool.noConfusion this
  have plainP : ∀ ch, p.data.getLast? = some ch → ch.isDigit = false := by
    intro ch hch
    simpa [endsInDigit, hch] using hp
  have plainQ : ∀ ch, q.data.getLast? = some ch → ch.isDigit = false := by
    intro ch hch
    simpa [endsInDigit, hch] using hq
  rcases List.append_eq_append_iff.mp h with ⟨a, hq', hd⟩ | ⟨a, hp', hd⟩
  · have ha := key p.data q.data d1 d2 h1 plainQ a hq' hd
    subst ha
    simp only [List.append_nil, List.nil_append] at hq' hd
    exact ⟨String.ext hq'.symm, hd⟩
  · have ha := key q.data p.data d2 d1 h2 plainP a hp' hd
    subst ha
    simp only [List.append_nil, List.nil_append] at hp' hd
    exact ⟨String.ext hp', hd.symm⟩

/-! ## Runs of `fresh_name` -/

lemma substituteFuel_succ {n : Nat} {e : Expr} {x : String} {r : Expr} {c : NameCounter}
    {res : Expr × NameCounter} (h : substituteFuel n e x r c = some res) :
    substituteFuel (n + 1) e x r c = some res := by
  induction n generalizing e x r c res with
  | zero => simp [substituteFuel] at h
  | succ n ih =>
      cases e with
      | var name => simpa [substituteFuel] using h
      | lambda param body =>
          rw [substituteFuel] at h
          rw [substituteFuel]
          split_ifs at h ⊢ with h1 h2
          · exact h
          · cases hb : substituteFuel n body param (.var (fresh_name param c).1)
                (fresh_name param c).2 with
            | none => simp [hb] at h
            | some rb =>
                obtain ⟨rb, c2⟩ := rb
                simp only [hb] at h
                simp only [ih hb]
                exact ih h
          · cases hb : substituteFuel n body x r c with
            | none => simp [hb] at h
            | some rb =>
                obtain ⟨rb, c2⟩ := rb
                simp only [hb] at h
                simp only [ih hb]
                exact h
      | app func arg =>
          rw [substituteFuel] at h
          rw [substituteFuel]
          cases hf : substituteFuel n func x r c with
          | none => simp [hf] at h
          | some rf =>
              obtain ⟨nf, c1⟩ := rf
              simp only [hf] at h
              simp only [ih hf]
              cases ha : substituteFuel n arg x r c1 with
              | none => simp [ha] at h
              | some ra =>
                  obtain ⟨na, c2⟩ := ra
                  simp only [ha] at h
                  simp only [ih ha]
                  exact h

lemma substituteFuel_mono {n m : Nat} (hnm : n ≤ m) {e : Expr} {x : String} {r : Expr}
    {c : NameCounter} {res : Expr × NameCounter} (h : substituteFuel n e x r c = some res) :
    substituteFuel m e x r c = some res := by
  induction hnm with
  | refl => exact h
  | step _ ih => exact substituteFuel_succ ih

lemma Expr.size_pos (e : Expr) : 0 < e.size := by
  cases e <;> simp [Expr.size]

lemma substituteFuel_var_size {n : Nat} {e : Expr} {x v : String} {c : NameCounter}
    {res : Expr × NameCounter} (h : substituteFuel n e x (.var v) c = some res) :
    res.1.size = e.size := by
  induction n generalizing e x v c res with
  | zero => simp [substituteFuel] at h
  | succ n ih =>
      cases e with
      | var name =>
          simp only [substituteFuel, Option.some.injEq] at h
          subst h
          by_cases hn : name = x <;> simp [hn, Expr.size]
      | lambda param body =>
          rw [substituteFuel] at h
          split_ifs at h with h1 h2
          · simp only [Option.some.injEq] at h
            subst h
            rfl
          · cases hb : substituteFuel n body param (.var (fresh_name param c).1)
                (fresh_name param c).2 with
            | none => simp [hb] at h
            | some rb =>
                obtain ⟨rb, c2⟩ := rb
                simp only [hb] at h
                rw [ih h]
                have := ih hb
                simp only at this
                simp [Expr.size, this]
          · cases hb : substituteFuel n body x (.var v) c with
            | none => simp [hb] at h
            | some rb =>
                obtain ⟨rb, c2⟩ := rb
                simp only [hb, Option.some.injEq] at h
                subst h
                have := ih hb
                simp only at this
                simp [Expr.size, this]
      | app func arg =>
          rw [substituteFuel] at h
          cases hf : substituteFuel n func x (.var v) c with
          | none => simp [hf] at h
          | some rf =>
              obtain ⟨nf, c1⟩ := rf
              simp only [hf] at h
              cases ha : substituteFuel n arg x (.var v) c1 with
              | none => simp [ha] at h
              | some ra =>
                  obtain ⟨na, c2⟩ := ra
                  simp only [ha, Option.some.injEq] at h
                  subst h
                  have h1 := ih hf
                  have h2 := ih ha
                  simp only at h1 h2
                  simp [Expr.size, h1, h2]

lemma substituteFuel_var_total (n : Nat) (e : Expr) (x v : String) (c : NameCounter)
    (h : 2 * e.size ≤ n + renameSlack v e) :
    ∃ res, substituteFuel n e x (.var v) c = some res := by
  induction n generalizing e x v c with
  | zero =>
      have := e.size_pos
      cases e with
      | var name => simp [renameSlack, Expr.size] at h
      | lambda param body =>
          have := body.size_pos
          simp only [renameSlack, Expr.size] at h
          split_ifs at h <;> omega
      | app func arg => simp only [renameSlack, Expr.size] at h; omega
  | succ n ih =>
      cases e with
      | var name => exact ⟨_, rfl⟩
      | lambda param body =>
          rw [substituteFuel]
          simp only [renameSlack, Expr.size] at h
          split_ifs with h1 h2
          · exact ⟨_, rfl⟩
          · obtain ⟨⟨rb, c2⟩, hb⟩ := ih body param (fresh_name param c).1 (fresh_name param c).2
              (by split_ifs at h <;> omega)
            simp only [hb]
            apply ih
            have hs := substituteFuel_var_size hb
            simp only at hs
            have hv : param = v := by
              simpa [free_in_eq, Expr.freeVars] using h2
            have hne : (fresh_name param c).1 ≠ v := hv ▸ fresh_name_ne param c
            simp only [renameSlack, Expr.size, hne, if_false, hs]
            split_ifs at h
            omega
          · obtain ⟨⟨rb, c2⟩, hb⟩ := ih body x v c (by split_ifs at h <;> omega)
            simp only [hb]
            exact ⟨_, rfl⟩
      | app func arg =>
          rw [substituteFuel]
          simp only [renameSlack, Expr.size] at h
          obtain ⟨⟨nf, c1⟩, hf⟩ := ih func x v c (by omega)
          simp only [hf]
          obtain ⟨⟨na, c2⟩, ha⟩ := ih arg x v c1 (by omega)
          simp only [ha]
          exact ⟨_, rfl⟩

lemma substituteFuel_total_aux (r : Expr) (n : Nat) (e : Expr) (x : String) (c : NameCounter)
    (h : (r.nameLen + 3) * e.size ≤ n + paramSlack (r.nameLen + 1) e) :
    ∃ res, substituteFuel n e x r c = some res := by
  induction n generalizing e c with
  | zero =>
      have := e.size_pos
      cases e with
      | var name => simp only [paramSlack, Expr.size] at h; omega
      | lambda param body =>
          have := body.size_pos
          simp only [paramSlack, Expr.size] at h
          have : (r.nameLen + 3) * (body.size + 1)
              = (r.nameLen + 3) * body.size + (r.nameLen + 3) := by ring
          have := Nat.min_le_right param.length (r.nameLen + 1)
          omega
      | app func arg =>
          simp only [paramSlack, Expr.size] at h
          have : 0 < (r.nameLen + 3) * (func.size + arg.size + 1) :=
            Nat.mul_pos (by omega) (by omega)
          omega
  | succ n ih =>
      cases e with
      | var name => exact ⟨_, rfl⟩
      | lambda param body =>
          rw [substituteFuel]
          simp only [paramSlack, Expr.size] at h
          have hexp : (r.nameLen + 3) * (body.size + 1)
              = (r.nameLen + 3) * body.size + (r.nameLen + 3) := by ring
          have hmin := Nat.min_le_right param.length (r.nameLen + 1)
          have hmul : 2 * body.size ≤ (r.nameLen + 3) * body.size :=
            Nat.mul_le_mul_right _ (by omega)
          split_ifs with h1 h2
          · exact ⟨_, rfl⟩
          · obtain ⟨⟨rb, c2⟩, hb⟩ := substituteFuel_var_total n body param
              (fresh_name param c).1 (fresh_name param c).2 (by omega)
            simp only [hb]
            apply ih
            have hs := substituteFuel_var_size hb
            simp only at hs
            have hlen := length_le_nameLen (free_in_eq r ▸ h2)
            have hfresh := fresh_name_length param c
            simp only [paramSlack, Expr.size, hs]
            have : param.length + 1 ≤ min (fresh_name param c).1.length (r.nameLen + 1) :=
              Nat.le_min.mpr ⟨hfresh, by omega⟩
            have : min param.length (r.nameLen + 1) ≤ param.length := Nat.min_le_left _ _
            omega
          · obtain ⟨⟨rb, c2⟩, hb⟩ := ih body c (by omega)
            simp only [hb]
            exact ⟨_, rfl⟩
      | app func arg =>
          rw [substituteFuel]
          simp only [paramSlack, Expr.size] at h
          have hexp : (r.nameLen + 3) * (func.size + arg.size + 1)
              = (r.nameLen + 3) * func.size + (r.nameLen + 3) * arg.size + (r.nameLen + 3) := by
            ring
          obtain ⟨⟨nf, c1⟩, hf⟩ := ih func c (by omega)
          simp only [hf]
          obtain ⟨⟨na, c2⟩, ha⟩ := ih arg c1 (by omega)
          simp only [ha]
          exact ⟨_, rfl⟩

/-- With fuel `substituteBound expr arg` or more, `substituteFuel` returns a result. -/
lemma substituteFuel_total (e : Expr) (x : String) (r : Expr) (c : NameCounter) {n : Nat}
    (h : substituteBound e r ≤ n) : ∃ res, substituteFuel n e x r c = some res :=
  substituteFuel_total_aux r n e x c (Nat.le_trans h (Nat.le_add_right _ _))

/-- Any result of `substituteFuel` is the value of `substitute`. -/
lemma substituteFuel_eq_substitute {n : Nat} {e : Expr} {x : String} {r : Expr}
    {c : NameCounter} {res : Expr × NameCounter} (h : substituteFuel n e x r c = some res) :
    substitute e x r c = res := by
  obtain ⟨res', h'⟩ := substituteFuel_total e x r c (Nat.le_refl _)
  have h1 := substituteFuel_mono (Nat.le_max_left n (substituteBound e r)) h
  have h2 := substituteFuel_mono (Nat.le_max_right n (substituteBound e r)) h'
  rw [h1] at h2
  simp only [Option.some.injEq] at h2
  simp [substitute, h', h2]

/-- The value of `substitute` is reached by `substituteFuel` with enough fuel. -/
lemma substituteFuel_of_le (e : Expr) (x : String) (r : Expr) (c : NameCounter) {n : Nat}
    (h : substituteBound e r ≤ n) : substituteFuel n e x r c = some (substitute e x r c) := by
  obtain ⟨res, hres⟩ := substituteFuel_total e x r c h
  rw [hres, substituteFuel_eq_substitute hres]

/-! ## The recursion equations of `substitute`, as in the source -/

lemma substitute_var (name x : String) (r : Expr) (c : NameCounter) :
    substitute (.var name) x r c = (if name = x then r else .var name, c) :=
  substituteFuel_eq_substitute (n := 1) rfl

lemma substitute_lambda_shadow (param : String) (body r : Expr) (c : NameCounter) :
    substitute (.lambda param body) param r c = (.lambda param body, c) :=
  substituteFuel_eq_substitute (n := 1) (by simp [substituteFuel])

lemma substitute_lambda_rename {param x : String} (body : Expr) {r : Expr} (c : NameCounter)
    (hx : param ≠ x) (hfree : param ∈ free_in r) :
    substitute (.lambda param body) x r c =
      substitute
        (.lambda (fresh_name param c).1
          (substitute body param (.var (fresh_name param c).1) (fresh_name param c).2).1)
        x r (substitute body param (.var (fresh_name param c).1) (fresh_name param c).2).2 := by
  let np := (fresh_name param c).1
  let c1 := (fresh_name param c).2
  let rb := substitute body param (.var np) c1
  let N := max (substituteBound body (.var np)) (substituteBound (.lambda np rb.1) r)
  apply substituteFuel_eq_substitute (n := N + 1)
  rw [substituteFuel, if_neg hx, if_pos hfree,
    substituteFuel_of_le body param (.var np) c1 (Nat.le_max_left _ _)]
  exact substituteFuel_of_le (.lambda np rb.1) x r rb.2 (Nat.le_max_right _ _)

lemma substitute_lambda_descend {param x : String} (body : Expr) {r : Expr} (c : NameCounter)
    (hx : param ≠ x) (hfree : param ∉ free_in r) :
    substitute (.lambda param body) x r c =
      (.lambda param (substitute body x r c).1, (substitute body x r c).2) := by
  apply substituteFuel_eq_substitute (n := substituteBound body r + 1)
  rw [substituteFuel, if_neg hx, if_neg hfree,
    substituteFuel_of_le body x r c (Nat.le_refl _)]

lemma substitute_app (func arg : Expr) (x : String) (r : Expr) (c : NameCounter) :
    substitute (.app func arg) x r c =
      (.app (substitute func x r c).1 (substitute arg x r (substitute func x r c).2).1,
        (substitute arg x r (substitute func x r c).2).2) := by
  let N := max (substituteBound func r) (substituteBound arg r)
  apply substituteFuel_eq_substitute (n := N + 1)
  rw [substituteFuel, substituteFuel_of_le func x r c (Nat.le_max_left _ _)]
  simp only
  rw [substituteFuel_of_le arg x r _ (Nat.le_max_right _ _)]

/-! ## Free variables of a substitution result -/

/-- When every rename is fresh, the result of `substitute(e, x, r)` has the free
identifiers of `e` other than `x`, and those of `r` when `x` is free in `e`. -/
lemma mem_freeVars_substitute {e : Expr} {x : String} {r : Expr} {c : NameCounter}
    (h : RenamesFresh e x r c) (z : String) :
    z ∈ (substitute e x r c).1.freeVars ↔
      (z ≠ x ∧ z ∈ e.freeVars) ∨ (x ∈ e.freeVars ∧ z ∈ r.freeVars) := by
  induction h generalizing z with
  | var name var arg c =>
      rw [substitute_var]
      by_cases hn : name = var
      · subst hn
        simp only [if_true, Expr.freeVars, Finset.mem_singleton]
        constructor
        · exact fun hz => Or.inr ⟨trivial, hz⟩
        · rintro (⟨h1, h2⟩ | ⟨_, h2⟩)
          · exact absurd h2 h1
          · exact h2
      · simp only [hn, if_false, Expr.freeVars, Finset.mem_singleton]
        constructor
        · rintro rfl
          exact Or.inl ⟨hn, rfl⟩
        · rintro (⟨_, h2⟩ | ⟨h1, _⟩)
          · exact h2
          · exact absurd h1.symm hn
  | shadow param body arg c =>
      rw [substitute_lambda_shadow]
      simp only [Expr.freeVars, Finset.mem_erase]
      tauto
  | @rename param var body arg c hx hfree hfresh _ _ ih1 ih2 =>
      rw [substitute_lambda_rename body c hx hfree, ih2]
      have hfv : ∀ w, w ∈ (Expr.lambda (fresh_name param c).1
          (substitute body param (.var (fresh_name param c).1) (fresh_name param c).2).1).freeVars
          ↔ w ∈ (Expr.lambda param body).freeVars := by
        intro w
        simp only [Expr.freeVars, Finset.mem_erase, ih1, Finset.mem_singleton]
        simp only [Expr.freeVars, Finset.mem_erase] at hfresh
        constructor
        · rintro ⟨h1, (⟨h2, h3⟩ | ⟨_, h3⟩)⟩
          · exact ⟨h2, h3⟩
          · exact absurd h3 h1
        · rintro ⟨h1, h2⟩
          refine ⟨?_, Or.inl ⟨h1, h2⟩⟩
          rintro rfl
          exact hfresh ⟨fresh_name_ne param c, h2⟩
      rw [hfv, hfv]
  | @descend param var body arg c hx hfree _ ih =>
      rw [substitute_lambda_descend body c hx hfree]
      simp only [Expr.freeVars, Finset.mem_erase, ih]
      rw [free_in_eq] at hfree
      constructor
      · rintro ⟨h1, (⟨h2, h3⟩ | ⟨h2, h3⟩)⟩
        · exact Or.inl ⟨h2, h1, h3⟩
        · exact Or.inr ⟨⟨fun h => hx h.symm, h2⟩, h3⟩
      · rintro (⟨h1, h2, h3⟩ | ⟨⟨_, h2⟩, h3⟩)
        · exact ⟨h2, Or.inl ⟨h1, h3⟩⟩
        · refine ⟨?_, Or.inr ⟨h2, h3⟩⟩
          rintro rfl
          exact hfree h3
  | @app func arg' var arg c _ _ ih1 ih2 =>
      rw [substitute_app]
      simp only [Expr.freeVars, Finset.mem_union, ih1, ih2]
      tauto

/-! ## Substitution without renaming -/

/-- When no abstraction has to be renamed, `substitute` is plain replacement of the
free occurrences and leaves the counter alone. -/
lemma substitute_of_no_rename (e : Expr) (x : String) (r : Expr) (c : NameCounter)
    (h : renameNeeded x r e = false) : substitute e x r c = (replaceFree x r e, c) := by
  induction e generalizing c with
  | var name => rw [substitute_var]; rfl
  | lambda param body ih =>
      by_cases hx : param = x
      · subst hx
        rw [substitute_lambda_shadow]
        simp [replaceFree]
      · simp only [renameNeeded, hx, if_false, Bool.or_eq_false_iff, decide_eq_false_iff_not]
          at h
        rw [substitute_lambda_descend body c hx (by rw [free_in_eq]; exact h.1), ih c h.2]
        simp [replaceFree, hx]
  | app func arg ihf iha =>
      simp only [renameNeeded, Bool.or_eq_false_iff] at h
      rw [substitute_app, ihf c h.1, iha c h.2]
      rfl

lemma replaceFree_of_not_free (e : Expr) (x : String) (r : Expr) (h : x ∉ e.freeVars) :
    replaceFree x r e = e := by
  induction e with
  | var name =>
      simp only [Expr.freeVars, Finset.mem_singleton] at h
      simp [replaceFree, Ne.symm h]
  | lambda param body ih =>
      by_cases hx : param = x
      · simp [replaceFree, hx]
      · simp only [Expr.freeVars, Finset.mem_erase, not_and] at h
        simp [replaceFree, hx, ih (h (Ne.symm hx))]
  | app func arg ihf iha =>
      simp only [Expr.freeVars, Finset.mem_union, not_or] at h
      simp [replaceFree, ihf h.1, iha h.2]

lemma renameNeeded_of_closed (e : Expr) (x : String) (r : Expr) (h : r.freeVars = ∅) :
    renameNeeded x r e = false := by
  induction e with
  | var name => rfl
  | lambda param body ih => simp [renameNeeded, h, ih]
  | app func arg ihf iha => simp [renameNeeded, ihf, iha]

/-! ## Terms whose identifiers do not end in a digit are renamed freshly -/

lemma settledName_mono {c c' : NameCounter} (h : ∀ q, c q ≤ c' q) {name : String}
    (hn : settledName c name) : settledName c' name := by
  rcases hn with hn | ⟨p, k, hp, hk, rfl⟩
  · exact Or.inl hn
  · exact Or.inr ⟨p, k, hp, Nat.le_trans hk (h p), rfl⟩

lemma fresh_name_counter_le (base : String) (c : NameCounter) (q : String) :
    c q ≤ (fresh_name base c).2 q := by
  simp only [fresh_name, Function.update_apply]
  split_ifs with h
  · subst h
    exact Nat.le_succ _
  · exact Nat.le_refl _

lemma settledName_fresh_name {base : String} (c : NameCounter) (h : endsInDigit base = false) :
    settledName (fresh_name base c).2 (fresh_name base c).1 :=
  Or.inr ⟨base, c base + 1, h, by simp [fresh_name], rfl⟩

lemma fresh_name_ne_settled {base : String} {c : NameCounter} {name : String}
    (h : endsInDigit base = false) (hn : settledName c name) : name ≠ (fresh_name base c).1 := by
  rintro rfl
  rcases hn with hn | ⟨p, k, hp, hk, heq⟩
  · rw [endsInDigit_fresh_name] at hn
    exact Bool.noConfusion hn
  · have hdata : base.data ++ (Nat.repr (c base + 1)).data = p.data ++ (Nat.repr k).data := by
      have := congrArg String.data heq
      simpa [fresh_name] using this
    obtain ⟨hbp, hd⟩ := append_digits_unique h hp (repr_isDigit _) (repr_isDigit _) hdata
    have hk' : c base + 1 = k := repr_injective (String.ext hd)
    subst hbp
    omega

lemma renameNeeded_var_of_not_mem {p np : String} {b : Expr} (h : np ∉ b.allNames) :
    renameNeeded p (.var np) b = false := by
  induction b with
  | var name => rfl
  | lambda param body ih =>
      simp only [Expr.allNames, Finset.mem_insert, not_or] at h
      simp only [renameNeeded, Expr.freeVars, Finset.mem_singleton, ih h.2, Bool.or_false]
      split_ifs
      · rfl
      · exact decide_eq_false (fun hp => h.1 hp.symm)
  | app func arg ihf iha =>
      simp only [Expr.allNames, Finset.mem_union, not_or] at h
      simp [renameNeeded, ihf h.1, iha h.2]

lemma allNames_replaceFree_var (p np : String) (b : Expr) :
    ∀ n ∈ (replaceFree p (.var np) b).allNames, n ∈ b.allNames ∨ n = np := by
  induction b with
  | var name =>
      intro n hn
      simp only [replaceFree] at hn
      split_ifs at hn
      · exact Or.inr (by simpa [Expr.allNames] using hn)
      · exact Or.inl hn
  | lambda param body ih =>
      intro n hn
      simp only [replaceFree] at hn
      split_ifs at hn
      · exact Or.inl hn
      · simp only [Expr.allNames, Finset.mem_insert] at hn ⊢
        rcases hn with hn | hn
        · exact Or.inl (Or.inl hn)
        · rcases ih n hn with h | h
          · exact Or.inl (Or.inr h)
          · exact Or.inr h
  | app func arg ihf iha =>
      intro n hn
      simp only [replaceFree, Expr.allNames, Finset.mem_union] at hn ⊢
      rcases hn with hn | hn
      · rcases ihf n hn with h | h
        · exact Or.inl (Or.inl h)
        · exact Or.inr h
      · rcases iha n hn with h | h
        · exact Or.inl (Or.inr h)
        · exact Or.inr h

lemma size_replaceFree_var (p np : String) (b : Expr) :
    (replaceFree p (.var np) b).size = b.size := by
  induction b with
  | var name => simp only [replaceFree]; split_ifs <;> rfl
  | lambda param body ih => simp only [replaceFree]; split_ifs <;> simp [Expr.size, ih]
  | app func arg ihf iha => simp [replaceFree, Expr.size, ihf, iha]

lemma renamesFresh_of_no_rename (e : Expr) (x : String) (r : Expr) (c : NameCounter)
    (h : renameNeeded x r e = false) : RenamesFresh e x r c := by
  induction e generalizing c with
  | var name => exact RenamesFresh.var _ _ _ _
  | lambda param body ih =>
      by_cases hx : param = x
      · subst hx
        exact RenamesFresh.shadow _ _ _ _
      · simp only [renameNeeded, hx, if_false, Bool.or_eq_false_iff, decide_eq_false_iff_not]
          at h
        exact RenamesFresh.descend hx (by rw [free_in_eq]; exact h.1) (ih c h.2)
  | app func arg ihf iha =>
      simp only [renameNeeded, Bool.or_eq_false_iff] at h
      exact RenamesFresh.app (ihf c h.1) (iha _ h.2)

lemma freeVars_subset_allNames (e : Expr) : ∀ n ∈ e.freeVars, n ∈ e.allNames := by
  induction e with
  | var name => exact fun n hn => hn
  | lambda param body ih =>
      intro n hn
      simp only [Expr.freeVars, Finset.mem_erase] at hn
      simp only [Expr.allNames, Finset.mem_insert]
      exact Or.inr (ih n hn.2)
  | app func arg ihf iha =>
      intro n hn
      simp only [Expr.freeVars, Expr.allNames, Finset.mem_union] at hn ⊢
      exact hn.imp (ihf n) (iha n)

lemma renamesFresh_of_settled (x : String) (r : Expr)
    (hr : ∀ n ∈ r.freeVars, endsInDigit n = false) (N : Nat) :
    ∀ (e : Expr) (c : NameCounter), e.size ≤ N → (∀ n ∈ e.allNames, settledName c n) →
      RenamesFresh e x r c ∧ ∀ q, c q ≤ (substitute e x r c).2 q := by
  induction N with
  | zero =>
      intro e c hsize
      have := e.size_pos
      omega
  | succ N ih =>
      intro e c hsize hnames
      cases e with
      | var name =>
          refine ⟨RenamesFresh.var _ _ _ _, fun q => ?_⟩
          rw [substitute_var]
      | lambda param body =>
          simp only [Expr.size, Nat.add_le_add_iff_right] at hsize
          have hbody : ∀ n ∈ body.allNames, settledName c n := fun n hn =>
            hnames n (by simp [Expr.allNames, hn])
          by_cases hx : param = x
          · subst hx
            refine ⟨RenamesFresh.shadow _ _ _ _, fun q => ?_⟩
            rw [substitute_lambda_shadow]
          · by_cases hfree : param ∈ free_in r
            · have hplain : endsInDigit param = false := hr param (free_in_eq r ▸ hfree)
              have hnew : (fresh_name param c).1 ∉ (Expr.lambda param body).allNames :=
                fun hmem => fresh_name_ne_settled hplain (hnames _ hmem) rfl
              have hnewb : (fresh_name param c).1 ∉ body.allNames := fun hmem =>
                hnew (by simp [Expr.allNames, hmem])
              have hno := renameNeeded_var_of_not_mem (p := param) hnewb
              have hinner := substitute_of_no_rename body param (.var (fresh_name param c).1)
                (fresh_name param c).2 hno
              have hmono1 := fresh_name_counter_le param c
              have hrb : ∀ n ∈ (replaceFree param (.var (fresh_name param c).1) body).allNames,
                  settledName (fresh_name param c).2 n := by
                intro n hn
                rcases allNames_replaceFree_var _ _ _ n hn with h | h
                · exact settledName_mono hmono1 (hbody n h)
                · rw [h]
                  exact settledName_fresh_name c hplain
              have hrec := ih (replaceFree param (.var (fresh_name param c).1) body)
                (fresh_name param c).2 (by rw [size_replaceFree_var]; exact hsize) hrb
              have hnotfree : (fresh_name param c).1 ∉ free_in r := by
                intro hmem
                have := hr _ (free_in_eq r ▸ hmem)
                rw [endsInDigit_fresh_name] at this
                exact Bool.noConfusion this
              have hretry : RenamesFresh
                  (.lambda (fresh_name param c).1
                    (replaceFree param (.var (fresh_name param c).1) body)) x r
                  (fresh_name param c).2 ∧
                  ∀ q, (fresh_name param c).2 q ≤
                    (substitute (.lambda (fresh_name param c).1
                      (replaceFree param (.var (fresh_name param c).1) body)) x r
                      (fresh_name param c).2).2 q := by
                by_cases hnx : (fresh_name param c).1 = x
                · rw [← hnx]
                  refine ⟨RenamesFresh.shadow _ _ _ _, fun q => ?_⟩
                  rw [substitute_lambda_shadow]
                · refine ⟨RenamesFresh.descend hnx hnotfree hrec.1, fun q => ?_⟩
                  rw [substitute_lambda_descend _ _ hnx hnotfree]
                  exact hrec.2 q
              constructor
              · refine RenamesFresh.rename hx hfree
                  (fun hmem => hnew (freeVars_subset_allNames _ _ hmem))
                  (renamesFresh_of_no_rename _ _ _ _ hno) ?_
                rw [hinner]
                exact hretry.1
              · intro q
                rw [substitute_lambda_rename body c hx hfree, hinner]
                exact Nat.le_trans (hmono1 q) (hretry.2 q)
            · have hrec := ih body c hsize hbody
              refine ⟨RenamesFresh.descend hx hfree hrec.1, fun q => ?_⟩
              rw [substitute_lambda_descend body c hx hfree]
              exact hrec.2 q
      | app func arg =>
          simp only [Expr.size] at hsize
          have hf := ih func c (by omega) (fun n hn => hnames n (by simp [Expr.allNames, hn]))
          have ha := ih arg (substitute func x r c).2 (by omega)
            (fun n hn => settledName_mono hf.2 (hnames n (by simp [Expr.allNames, hn])))
          refine ⟨RenamesFresh.app hf.1 ha.1, fun q => ?_⟩
          rw [substitute_app]
          exact Nat.le_trans (hf.2 q) (ha.2 q)

/-- When no identifier occurring in `e` and no identifier free in `r` ends in a
decimal digit, every rename performed by `substitute(e, x, r)` is fresh, in every
state of the counter. -/
lemma renamesFresh_of_no_digit (e : Expr) (x : String) (r : Expr) (c : NameCounter)
    (he : ∀ n ∈ e.allNames, endsInDigit n = false)
    (hr : ∀ n ∈ r.freeVars, endsInDigit n = false) : RenamesFresh e x r c :=
  (renamesFresh_of_settled x r hr e.size e c (Nat.le_refl _) (fun n hn => Or.inl (he n hn))).1

/-! ## Parser: the fuel of `parse_expr` is never used up -/

lemma skip_space_length_le (it : List Char) : (skip_space it).length ≤ it.length := by
  induction it with
  | nil => simp [skip_space]
  | cons ch rest ih =>
      simp only [skip_space]
      split_ifs
      · exact Nat.le_trans ih (Nat.le_succ _)
      · exact Nat.le_refl _

lemma parse_var_length_le (it : List Char) : (parse_var it).2.length ≤ it.length := by
  have hs := skip_space_length_le it
  simp only [parse_var]
  cases hsk : skip_space it with
  | nil => exact Nat.zero_le _
  | cons ch rest =>
      rw [hsk] at hs
      show (if (!isIdentStart ch) = true then ((none : Option Expr), ch :: rest)
        else (some (.var (String.mk ((ch :: rest).takeWhile isIdentChar))),
          (ch :: rest).dropWhile isIdentChar)).2.length ≤ it.length
      split_ifs
      · exact hs
      · exact Nat.le_trans (List.Sublist.length_le (List.dropWhile_sublist _)) hs

/-- What the parse functions need from the recursive `parse_expr` on inputs shorter
than `bound`: it returns, and it does not move the position backwards. -/
lemma parse_lambda_total (pe : List Char → Option (Option Expr × List Char)) (it : List Char)
    (hpe : ∀ s, s.length < it.length →
      ∃ t rem, pe s = some (t, rem) ∧ rem.length ≤ s.length) :
    ∃ t rem, parse_lambda pe it = some (t, rem) ∧ rem.length ≤ it.length := by
  have hs := skip_space_length_le it
  simp only [parse_lambda]
  cases hsk : skip_space it with
  | nil => exact ⟨_, _, rfl, Nat.le_refl _⟩
  | cons ch it1 =>
      rw [hsk] at hs
      simp only [List.length_cons] at hs
      simp only
      split_ifs with hch
      · exact ⟨_, _, rfl, Nat.le_refl _⟩
      · have hv := parse_var_length_le it1
        rcases hpv : parse_var it1 with ⟨_ | param, it2⟩
        · exact ⟨_, _, rfl, Nat.le_refl _⟩
        · rw [hpv] at hv
          simp only at hv ⊢
          have hs2 := skip_space_length_le it2
          cases hsk2 : skip_space it2 with
          | nil => exact ⟨_, _, rfl, Nat.le_refl _⟩
          | cons ch2 it3 =>
              rw [hsk2] at hs2
              simp only [List.length_cons] at hs2
              simp only
              split_ifs with hch2
              · exact ⟨_, _, rfl, Nat.le_refl _⟩
              · obtain ⟨t, rem, hr, hlen⟩ := hpe it3 (by omega)
                rw [hr]
                cases t with
                | none => exact ⟨_, _, rfl, Nat.le_refl _⟩
                | some body =>
                    cases param with
                    | var name => exact ⟨_, _, rfl, by omega⟩
                    | lambda p b => exact ⟨_, _, rfl, Nat.le_refl _⟩
                    | app f a => exact ⟨_, _, rfl, Nat.le_refl _⟩

lemma parse_app_total (pe : List Char → Option (Option Expr × List Char)) (it : List Char)
    (hpe : ∀ s, s.length < it.length →
      ∃ t rem, pe s = some (t, rem) ∧ rem.length ≤ s.length) :
    ∃ t rem, parse_app pe it = some (t, rem) ∧ rem.length ≤ it.length := by
  have hs := skip_space_length_le it
  simp only [parse_app]
  cases hsk : skip_space it with
  | nil => exact ⟨_, _, rfl, Nat.le_refl _⟩
  | cons ch it1 =>
      rw [hsk] at hs
      simp only [List.length_cons] at hs
      simp only
      split_ifs with hch
      · exact ⟨_, _, rfl, Nat.le_refl _⟩
      · obtain ⟨t, it2, hr, hlen⟩ := hpe it1 (by omega)
        rw [hr]
        cases t with
        | none => exact ⟨_, _, rfl, Nat.le_refl _⟩
        | some func =>
            simp only
            have hs2 := skip_space_length_le it2
            cases hsk2 : skip_space it2 with
            | nil => exact ⟨_, _, rfl, Nat.le_refl _⟩
            | cons ch2 it3 =>
                rw [hsk2] at hs2
                simp only [List.length_cons] at hs2
                simp only
                split_ifs with hch2
                · exact ⟨_, _, rfl, Nat.le_refl _⟩
                · obtain ⟨t2, it4, hr2, hlen2⟩ := hpe it3 (by omega)
                  rw [hr2]
                  cases t2 with
                  | none => exact ⟨_, _, rfl, Nat.le_refl _⟩
                  | some arg =>
                      simp only
                      have hs4 := skip_space_length_le it4
                      cases hsk4 : skip_space it4 with
                      | nil => exact ⟨_, _, rfl, Nat.le_refl _⟩
                      | cons ch3 it5 =>
                          rw [hsk4] at hs4
                          simp only [List.length_cons] at hs4
                          simp only
                          split_ifs with hch3
                          · exact ⟨_, _, rfl, Nat.le_refl _⟩
                          · exact ⟨_, _, rfl, by omega⟩

/-- With fuel above the length of the input, `parse_expr_fuel` returns, and the
position it returns is not before the one it was given. -/
lemma parse_expr_fuel_total (fuel : Nat) (it : List Char) (h : it.length < fuel) :
    ∃ t rem, parse_expr_fuel fuel it = some (t, rem) ∧ rem.length ≤ it.length := by
  induction fuel generalizing it with
  | zero => exact absurd h (Nat.not_lt_zero _)
  | succ n ih =>
      have hs := skip_space_length_le it
      simp only [parse_expr_fuel]
      cases hsk : skip_space it with
      | nil => exact ⟨_, _, rfl, Nat.zero_le _⟩
      | cons ch rest =>
          rw [hsk] at hs
          simp only
          have hrec : ∀ s, s.length < (ch :: rest).length →
              ∃ t rem, parse_expr_fuel n s = some (t, rem) ∧ rem.length ≤ s.length :=
            fun s hlt => ih s (by omega)
          split_ifs with h1 h2
          · obtain ⟨t, rem, hr, hlen⟩ := parse_lambda_total _ (ch :: rest) hrec
            exact ⟨t, rem, hr, Nat.le_trans hlen hs⟩
          · obtain ⟨t, rem, hr, hlen⟩ := parse_app_total _ (ch :: rest) hrec
            exact ⟨t, rem, hr, Nat.le_trans hlen hs⟩
          · have hv := parse_var_length_le (ch :: rest)
            exact ⟨_, _, rfl, Nat.le_trans hv hs⟩

/-- The fuel in the definition of `parse_expr` suffices. -/
lemma parse_expr_fuel_self (it : List Char) :
    parse_expr_fuel (it.length + 1) it = some (parse_expr it) := by
  obtain ⟨t, rem, hr, _⟩ := parse_expr_fuel_total (it.length + 1) it (Nat.lt_succ_self _)
  simp [parse_expr, hr]

lemma parse_lambda_congr (pe pe' : List Char → Option (Option Expr × List Char))
    (it : List Char) (h : ∀ s, s.length < it.length → pe s = pe' s) :
    parse_lambda pe it = parse_lambda pe' it := by
  have hs := skip_space_length_le it
  simp only [parse_lambda]
  cases hsk : skip_space it with
  | nil => rfl
  | cons ch it1 =>
      rw [hsk] at hs
      simp only [List.length_cons] at hs
      simp only
      split_ifs with hch
      · rfl
      · have hv := parse_var_length_le it1
        rcases hpv : parse_var it1 with ⟨_ | param, it2⟩
        · rfl
        · rw [hpv] at hv
          simp only at hv ⊢
          have hs2 := skip_space_length_le it2
          cases hsk2 : skip_space it2 with
          | nil => rfl
          | cons ch2 it3 =>
              rw [hsk2] at hs2
              simp only [List.length_cons] at hs2
              simp only
              split_ifs with hch2
              · rfl
              · rw [h it3 (by omega)]

lemma parse_app_congr (pe pe' : List Char → Option (Option Expr × List Char))
    (it : List Char) (h : ∀ s, s.length < it.length → pe s = pe' s)
    (hlen : ∀ s, s.length < it.length → ∀ t rem, pe s = some (t, rem) →
      rem.length ≤ s.length) :
    parse_app pe it = parse_app pe' it := by
  have hs := skip_space_length_le it
  simp only [parse_app]
  cases hsk : skip_space it with
  | nil => rfl
  | cons ch it1 =>
      rw [hsk] at hs
      simp only [List.length_cons] at hs
      simp only
      split_ifs with hch
      · rfl
      · rw [← h it1 (by omega)]
        rcases hr : pe it1 with _ | ⟨_ | func, it2⟩
        · rfl
        · rfl
        · have hl := hlen it1 (by omega) _ _ hr
          simp only
          have hs2 := skip_space_length_le it2
          cases hsk2 : skip_space it2 with
          | nil => rfl
          | cons ch2 it3 =>
              rw [hsk2] at hs2
              simp only [List.length_cons] at hs2
              simp only
              split_ifs with hch2
              · rfl
              · rw [h it3 (by omega)]

/-- Above the length of the input, the result of `parse_expr_fuel` does not depend on
the fuel. -/
lemma parse_expr_fuel_indep (n m : Nat) (it : List Char) (hn : it.length < n)
    (hm : it.length < m) : parse_expr_fuel n it = parse_expr_fuel m it := by
  induction n generalizing m it with
  | zero => exact absurd hn (Nat.not_lt_zero _)
  | succ n ih =>
      cases m with
      | zero => exact absurd hm (Nat.not_lt_zero _)
      | succ m =>
          have hs := skip_space_length_le it
          simp only [parse_expr_fuel]
          cases hsk : skip_space it with
          | nil => rfl
          | cons ch rest =>
              rw [hsk] at hs
              simp only
              have hrec : ∀ s, s.length < (ch :: rest).length →
                  parse_expr_fuel n s = parse_expr_fuel m s :=
                fun s hlt => ih m s (by omega) (by omega)
              have hlen : ∀ s, s.length < (ch :: rest).length → ∀ t rem,
                  parse_expr_fuel n s = some (t, rem) → rem.length ≤ s.length := by
                intro s hlt t rem hr
                obtain ⟨t', rem', hr', hl⟩ := parse_expr_fuel_total n s (by omega)
                rw [hr] at hr'
                simp only [Option.some.injEq, Prod.mk.injEq] at hr'
                rw [hr'.2]
                exact hl
              split_ifs with h1 h2
              · exact parse_lambda_congr _ _ _ hrec
              · exact parse_app_congr _ _ _ hrec hlen
              · rfl

lemma parse_expr_fuel_eq (n : Nat) (it : List Char) (hn : it.length < n) :
    parse_expr_fuel n it = some (parse_expr it) := by
  rw [parse_expr_fuel_indep n (it.length + 1) it hn (Nat.lt_succ_self _), parse_expr_fuel_self]

/-- The recursion equation of `parse_expr`, as in the source: skip the blanks, then
dispatch on the next character, the productions calling `parse_expr` itself. -/
lemma parse_expr_eq (it : List Char) :
    some (parse_expr it) =
      match skip_space it with
      | [] => some (none, [])
      | ch :: rest =>
          if ch = '%' then parse_lambda (fun s => some (parse_expr s)) (ch :: rest)
          else if ch = '<' then parse_app (fun s => some (parse_expr s)) (ch :: rest)
          else some (parse_var (ch :: rest)) := by
  have hs := skip_space_length_le it
  rw [← parse_expr_fuel_self, parse_expr_fuel]
  cases hsk : skip_space it with
  | nil => rfl
  | cons ch rest =>
      rw [hsk] at hs
      simp only
      have hrec : ∀ s, s.length < (ch :: rest).length →
          parse_expr_fuel it.length s = (fun s => some (parse_expr s)) s :=
        fun s hlt => parse_expr_fuel_eq _ s (by omega)
      have hlen : ∀ s, s.length < (ch :: rest).length → ∀ t rem,
          parse_expr_fuel it.length s = some (t, rem) → rem.length ≤ s.length := by
        intro s hlt t rem hr
        obtain ⟨t', rem', hr', hl⟩ := parse_expr_fuel_total it.length s (by omega)
        rw [hr] at hr'
        simp only [Option.some.injEq, Prod.mk.injEq] at hr'
        rw [hr'.2]
        exact hl
      split_ifs with h1 h2
      · exact parse_lambda_congr _ _ _ hrec
      · exact parse_app_congr _ _ _ hrec hlen
      · rfl

/-! ## Parser: printing and parsing -/

lemma skip_space_of_not_space {ch : Char} (rest : List Char) (h : isSpaceChar ch = false) :
    skip_space (ch :: rest) = ch :: rest := by
  simp [skip_space, h]

lemma skip_space_blank (rest : List Char) : skip_space (' ' :: rest) = skip_space rest := by
  simp [skip_space, isSpaceChar]

lemma isIdentStart_not_space {ch : Char} (h : isIdentStart ch = true) :
    isSpaceChar ch = false := by
  by_contra hs
  simp only [isSpaceChar, Bool.not_eq_false, Bool.or_eq_true, decide_eq_true_eq] at hs
  rcases hs with ((rfl | rfl) | rfl) | rfl <;> revert h <;> decide

lemma isIdentStart_ne_percent {ch : Char} (h : isIdentStart ch = true) : ch ≠ '%' := by
  rintro rfl
  revert h
  decide

lemma isIdentStart_ne_langle {ch : Char} (h : isIdentStart ch = true) : ch ≠ '<' := by
  rintro rfl
  revert h
  decide

lemma isIdentStart_isIdentChar {ch : Char} (h : isIdentStart ch = true) :
    isIdentChar ch = true := by
  simp only [isIdentStart, Bool.or_eq_true, decide_eq_true_eq] at h
  simp only [isIdentChar, Char.isAlphanum, Bool.or_eq_true, decide_eq_true_eq]
  rcases h with h | h
  · exact Or.inl (Or.inl h)
  · exact Or.inr h

lemma takeWhile_ident_append (l rest : List Char) (hl : l.all isIdentChar = true)
    (hrest : noIdentAhead rest = true) :
    (l ++ rest).takeWhile isIdentChar = l ∧ (l ++ rest).dropWhile isIdentChar = rest := by
  induction l with
  | nil =>
      cases rest with
      | nil => exact ⟨rfl, rfl⟩
      | cons ch tl =>
          simp only [noIdentAhead, Bool.not_eq_true'] at hrest
          simp [List.takeWhile, List.dropWhile, hrest]
  | cons a l ih =>
      simp only [List.all_cons, Bool.and_eq_true] at hl
      obtain ⟨h1, h2⟩ := ih hl.2
      simp [List.takeWhile, List.dropWhile, hl.1, h1, h2]

lemma parse_var_ident (name : String) (rest : List Char) (hname : isIdentifier name = true)
    (hrest : noIdentAhead rest = true) :
    parse_var (name.data ++ rest) = (some (.var name), rest) := by
  obtain ⟨chars⟩ := name
  cases chars with
  | nil => simp [isIdentifier] at hname
  | cons ch tl =>
      simp only [isIdentifier, Bool.and_eq_true] at hname
      have hall : (ch :: tl).all isIdentChar = true := by
        simp only [List.all_cons, Bool.and_eq_true]
        exact ⟨isIdentStart_isIdentChar hname.1, hname.2⟩
      obtain ⟨h1, h2⟩ := takeWhile_ident_append (ch :: tl) rest hall hrest
      simp only [List.cons_append] at h1 h2
      simp only [parse_var, List.cons_append,
        skip_space_of_not_space _ (isIdentStart_not_space hname.1), hname.1, h1, h2]
      rfl

lemma parse_expr_fuel_blank (fuel : Nat) (rest : List Char) :
    parse_expr_fuel fuel (' ' :: rest) = parse_expr_fuel fuel rest := by
  cases fuel with
  | zero => rfl
  | succ n => simp only [parse_expr_fuel, skip_space_blank]

lemma noIdentAhead_blank (rest : List Char) : noIdentAhead (' ' :: rest) = true := by
  simp only [noIdentAhead]
  decide

lemma parse_expr_fuel_print (e : Expr) (fuel : Nat) (rest : List Char)
    (hwf : e.wellFormed = true) (hrest : noIdentAhead rest = true) (hfuel : e.size ≤ fuel) :
    parse_expr_fuel fuel (e.print ++ rest) = some (some e, rest) := by
  induction e generalizing fuel rest with
  | var name =>
      cases fuel with
      | zero => simp [Expr.size] at hfuel
      | succ n =>
          simp only [Expr.wellFormed] at hwf
          have hv := parse_var_ident name rest hwf hrest
          obtain ⟨chars⟩ := name
          cases chars with
          | nil => simp [isIdentifier] at hwf
          | cons ch tl =>
              simp only [isIdentifier, Bool.and_eq_true] at hwf
              simp only [Expr.print, List.cons_append] at hv ⊢
              simp only [parse_expr_fuel,
                skip_space_of_not_space _ (isIdentStart_not_space hwf.1),
                if_neg (isIdentStart_ne_percent hwf.1), if_neg (isIdentStart_ne_langle hwf.1), hv]
  | lambda param body ih =>
      cases fuel with
      | zero => simp [Expr.size] at hfuel
      | succ n =>
          simp only [Expr.wellFormed, Bool.and_eq_true] at hwf
          simp only [Expr.size, Nat.add_le_add_iff_right] at hfuel
          have hp : parse_var (' ' :: (param.data ++ (' ' :: '.' :: ' ' :: (body.print ++ rest))))
              = (some (.var param), ' ' :: '.' :: ' ' :: (body.print ++ rest)) := by
            have := parse_var_ident param (' ' :: '.' :: ' ' :: (body.print ++ rest)) hwf.1
              (noIdentAhead_blank _)
            simpa only [parse_var, skip_space_blank] using this
          have hb := ih n rest hwf.2 hrest hfuel
          have hs : skip_space ('%' :: ' ' :: (param.data ++
              (' ' :: '.' :: ' ' :: (body.print ++ rest))))
              = '%' :: ' ' :: (param.data ++ (' ' :: '.' :: ' ' :: (body.print ++ rest))) :=
            skip_space_of_not_space _ (by decide)
          have hd : skip_space (' ' :: '.' :: ' ' :: (body.print ++ rest))
              = '.' :: ' ' :: (body.print ++ rest) := by
            rw [skip_space_blank]
            exact skip_space_of_not_space _ (by decide)
          simp only [Expr.print, List.cons_append, List.nil_append, List.append_assoc,
            parse_expr_fuel, hs, if_true, parse_lambda, hp, hd, parse_expr_fuel_blank, hb,
            ne_eq, not_true_eq_false, if_false]
  | app func arg ihf iha =>
      cases fuel with
      | zero => simp [Expr.size] at hfuel
      | succ n =>
          simp only [Expr.wellFormed, Bool.and_eq_true] at hwf
          simp only [Expr.size, Nat.add_le_add_iff_right] at hfuel
          have hf := ihf n (' ' :: '+' :: ' ' :: (arg.print ++ '>' :: rest)) hwf.1
            (noIdentAhead_blank _) (by omega)
          have ha := iha n ('>' :: rest) hwf.2 (by simp only [noIdentAhead]; decide) (by omega)
          have hs : skip_space ('<' :: (func.print ++
              (' ' :: '+' :: ' ' :: (arg.print ++ '>' :: rest))))
              = '<' :: (func.print ++ (' ' :: '+' :: ' ' :: (arg.print ++ '>' :: rest))) :=
            skip_space_of_not_space _ (by decide)
          have hd : skip_space (' ' :: '+' :: ' ' :: (arg.print ++ '>' :: rest))
              = '+' :: ' ' :: (arg.print ++ '>' :: rest) := by
            rw [skip_space_blank]
            exact skip_space_of_not_space _ (by decide)
          have hg : skip_space ('>' :: rest) = '>' :: rest :=
            skip_space_of_not_space _ (by decide)
          have hne : ('<' : Char) ≠ '%' := by decide
          simp only [Expr.print, List.cons_append, List.nil_append, List.append_assoc,
            parse_expr_fuel, hs, if_neg hne, if_true, parse_app, hf, hd, parse_expr_fuel_blank,
            ha, hg, ne_eq, not_true_eq_false, if_false]

lemma size_le_print_length (e : Expr) : e.size ≤ e.print.length + 1 := by
  induction e with
  | var name => simp [Expr.size]
  | lambda param body ih =>
      simp only [Expr.size, Expr.print, List.length_append, List.length_cons, List.length_nil]
      omega
  | app func arg ihf iha =>
      simp only [Expr.size, Expr.print, List.length_append, List.length_cons, List.length_nil]
      omega

/-! ## Parser: the successful paths of the productions -/

lemma parse_var_inv {it : List Char} {e : Expr} {rem : List Char}
    (h : parse_var it = (some e, rem)) :
    ∃ ch rest, skip_space it = ch :: rest ∧ isIdentStart ch = true ∧
      e = .var (String.mk ((ch :: rest).takeWhile isIdentChar)) ∧
      rem = (ch :: rest).dropWhile isIdentChar := by
  simp only [parse_var] at h
  cases hsk : skip_space it with
  | nil => simp [hsk] at h
  | cons ch rest =>
      rw [hsk] at h
      by_cases hst : isIdentStart ch = true
      · simp only [hst, Bool.not_true, Bool.false_eq_true, if_false, Prod.mk.injEq,
          Option.some.injEq] at h
        exact ⟨ch, rest, rfl, hst, h.1.symm, h.2.symm⟩
      · simp only [Bool.not_eq_true] at hst
        simp [hst] at h

lemma parse_var_intro {it : List Char} {ch : Char} {rest : List Char}
    (hsk : skip_space it = ch :: rest) (hst : isIdentStart ch = true) :
    parse_var it = (some (.var (String.mk ((ch :: rest).takeWhile isIdentChar))),
      (ch :: rest).dropWhile isIdentChar) := by
  simp only [parse_var, hsk, hst, Bool.not_true, Bool.false_eq_true, if_false]

lemma parse_lambda_inv {pe : List Char → Option (Option Expr × List Char)} {it : List Char}
    {e : Expr} {rem : List Char} (h : parse_lambda pe it = some (some e, rem)) :
    ∃ it1 param it2 it3 body, skip_space it = '%' :: it1 ∧
      parse_var it1 = (some (.var param), it2) ∧ skip_space it2 = '.' :: it3 ∧
      pe it3 = some (some body, rem) ∧ e = .lambda param body := by
  simp only [parse_lambda] at h
  cases hsk : skip_space it with
  | nil => simp [hsk] at h
  | cons ch it1 =>
      rw [hsk] at h
      simp only at h
      split_ifs at h with hch
      · simp at h
      · simp only [ne_eq, not_not] at hch
        subst hch
        rcases hpv : parse_var it1 with ⟨_ | param, it2⟩
        · simp [hpv] at h
        · rw [hpv] at h
          simp only at h
          cases hsk2 : skip_space it2 with
          | nil => simp [hsk2] at h
          | cons ch2 it3 =>
              rw [hsk2] at h
              simp only at h
              split_ifs at h with hch2
              · simp at h
              · simp only [ne_eq, not_not] at hch2
                subst hch2
                rcases hr : pe it3 with _ | ⟨_ | body, body_end⟩
                · simp [hr] at h
                · simp [hr] at h
                · rw [hr] at h
                  cases param with
                  | var name =>
                      simp only [Option.some.injEq, Prod.mk.injEq] at h
                      refine ⟨it1, name, it2, it3, body, rfl, hpv, hsk2, ?_, h.1.symm⟩
                      rw [hr, h.2]
                  | lambda p b => simp at h
                  | app f a => simp at h

lemma parse_lambda_intro {pe : List Char → Option (Option Expr × List Char)}
    {it it1 it2 it3 rem : List Char} {param : String} {body : Expr}
    (h1 : skip_space it = '%' :: it1) (h2 : parse_var it1 = (some (.var param), it2))
    (h3 : skip_space it2 = '.' :: it3) (h4 : pe it3 = some (some body, rem)) :
    parse_lambda pe it = some (some (.lambda param body), rem) := by
  simp only [parse_lambda, h1, h2, h3, h4, ne_eq, not_true_eq_false, if_false]

lemma parse_app_inv {pe : List Char → Option (Option Expr × List Char)} {it : List Char}
    {e : Expr} {rem : List Char} (h : parse_app pe it = some (some e, rem)) :
    ∃ it1 func it2 it3 arg it4, skip_space it = '<' :: it1 ∧
      pe it1 = some (some func, it2) ∧ skip_space it2 = '+' :: it3 ∧
      pe it3 = some (some arg, it4) ∧ skip_space it4 = '>' :: rem ∧ e = .app func arg := by
  simp only [parse_app] at h
  cases hsk : skip_space it with
  | nil => simp [hsk] at h
  | cons ch it1 =>
      rw [hsk] at h
      simp only at h
      split_ifs at h with hch
      · simp at h
      · simp only [ne_eq, not_not] at hch
        subst hch
        rcases hr : pe it1 with _ | ⟨_ | func, it2⟩
        · simp [hr] at h
        · simp [hr] at h
        · rw [hr] at h
          simp only at h
          cases hsk2 : skip_space it2 with
          | nil => simp [hsk2] at h
          | cons ch2 it3 =>
              rw [hsk2] at h
              simp only at h
              split_ifs at h with hch2
              · simp at h
              · simp only [ne_eq, not_not] at hch2
                subst hch2
                rcases hr2 : pe it3 with _ | ⟨_ | arg, it4⟩
                · simp [hr2] at h
                · simp [hr2] at h
                · rw [hr2] at h
                  simp only at h
                  cases hsk4 : skip_space it4 with
                  | nil => simp [hsk4] at h
                  | cons ch3 it5 =>
                      rw [hsk4] at h
                      simp only at h
                      split_ifs at h with hch3
                      · simp at h
                      · simp only [ne_eq, not_not] at hch3
                        subst hch3
                        simp only [Option.some.injEq, Prod.mk.injEq] at h
                        refine ⟨it1, func, it2, it3, arg, it4, rfl, hr, hsk2, hr2, ?_, h.1.symm⟩
                        rw [hsk4, h.2]

lemma parse_app_intro {pe : List Char → Option (Option Expr × List Char)}
    {it it1 it2 it3 it4 rem : List Char} {func arg : Expr}
    (h1 : skip_space it = '<' :: it1) (h2 : pe it1 = some (some func, it2))
    (h3 : skip_space it2 = '+' :: it3) (h4 : pe it3 = some (some arg, it4))
    (h5 : skip_space it4 = '>' :: rem) :
    parse_app pe it = some (some (.app func arg), rem) := by
  simp only [parse_app, h1, h2, h3, h4, h5, ne_eq, not_true_eq_false, if_false]

/-! ## Parser: a successful parse is not changed by text after it -/

lemma skip_space_append_of_cons {it : List Char} {ch : Char} {t : List Char}
    (h : skip_space it = ch :: t) (rest : List Char) :
    skip_space (it ++ rest) = ch :: (t ++ rest) := by
  induction it with
  | nil => simp [skip_space] at h
  | cons a l ih =>
      simp only [skip_space, List.cons_append] at h ⊢
      split_ifs at h ⊢ with ha
      · exact ih h
      · simp only [List.cons.injEq] at h
        obtain ⟨rfl, rfl⟩ := h
        rfl

lemma skip_space_head_not_space {it : List Char} {ch : Char} {t : List Char}
    (h : skip_space it = ch :: t) : isSpaceChar ch = false := by
  induction it with
  | nil => simp [skip_space] at h
  | cons a l ih =>
      simp only [skip_space] at h
      split_ifs at h with ha
      · exact ih h
      · simp only [List.cons.injEq] at h
        rw [← h.1]
        simpa using ha

lemma ident_split_append (l rest : List Char) (hrest : noIdentAhead rest = true) :
    (l ++ rest).takeWhile isIdentChar = l.takeWhile isIdentChar ∧
      (l ++ rest).dropWhile isIdentChar = l.dropWhile isIdentChar ++ rest := by
  induction l with
  | nil =>
      cases rest with
      | nil => exact ⟨rfl, rfl⟩
      | cons ch tl =>
          simp only [noIdentAhead, Bool.not_eq_true'] at hrest
          simp [List.takeWhile, List.dropWhile, hrest]
  | cons a l ih =>
      by_cases ha : isIdentChar a = true
      · simp [List.takeWhile, List.dropWhile, ha, ih.1, ih.2]
      · simp only [Bool.not_eq_true] at ha
        simp [List.takeWhile, List.dropWhile, ha]

lemma parse_var_append {it : List Char} {e : Expr} {rem : List Char}
    (h : parse_var it = (some e, rem)) (rest : List Char) (hrest : noIdentAhead rest = true) :
    parse_var (it ++ rest) = (some e, rem ++ rest) := by
  obtain ⟨ch, t, hsk, hst, rfl, rfl⟩ := parse_var_inv h
  have hsplit := ident_split_append (ch :: t) rest hrest
  rw [List.cons_append] at hsplit
  rw [parse_var_intro (skip_space_append_of_cons hsk rest) hst, hsplit.1, hsplit.2]

lemma parse_lambda_append {pe pe' : List Char → Option (Option Expr × List Char)}
    {rest : List Char} (hrest : noIdentAhead rest = true)
    (hpe : ∀ s e rem, pe s = some (some e, rem) → pe' (s ++ rest) = some (some e, rem ++ rest))
    {it : List Char} {e : Expr} {rem : List Char}
    (h : parse_lambda pe it = some (some e, rem)) :
    parse_lambda pe' (it ++ rest) = some (some e, rem ++ rest) := by
  obtain ⟨it1, param, it2, it3, body, h1, h2, h3, h4, rfl⟩ := parse_lambda_inv h
  exact parse_lambda_intro (skip_space_append_of_cons h1 rest)
    (parse_var_append h2 rest hrest) (skip_space_append_of_cons h3 rest) (hpe _ _ _ h4)

lemma parse_app_append {pe pe' : List Char → Option (Option Expr × List Char)}
    {rest : List Char}
    (hpe : ∀ s e rem, pe s = some (some e, rem) → pe' (s ++ rest) = some (some e, rem ++ rest))
    {it : List Char} {e : Expr} {rem : List Char}
    (h : parse_app pe it = some (some e, rem)) :
    parse_app pe' (it ++ rest) = some (some e, rem ++ rest) := by
  obtain ⟨it1, func, it2, it3, arg, it4, h1, h2, h3, h4, h5, rfl⟩ := parse_app_inv h
  exact parse_app_intro (skip_space_append_of_cons h1 rest) (hpe _ _ _ h2)
    (skip_space_append_of_cons h3 rest) (hpe _ _ _ h4) (skip_space_append_of_cons h5 rest)

lemma parse_expr_fuel_append (n : Nat) (rest : List Char) (hrest : noIdentAhead rest = true)
    (it : List Char) (e : Expr) (rem : List Char)
    (h : parse_expr_fuel n it = some (some e, rem)) :
    parse_expr_fuel n (it ++ rest) = some (some e, rem ++ rest) := by
  induction n generalizing it e rem with
  | zero => simp [parse_expr_fuel] at h
  | succ n ih =>
      simp only [parse_expr_fuel] at h ⊢
      cases hsk : skip_space it with
      | nil => simp [hsk] at h
      | cons ch t =>
          rw [hsk] at h
          rw [skip_space_append_of_cons hsk rest]
          simp only at h ⊢
          split_ifs at h ⊢ with h1 h2
          · have := parse_lambda_append hrest (fun s e rem => ih s e rem) h
            rwa [List.cons_append] at this
          · have := parse_app_append (fun s e rem => ih s e rem) h
            rwa [List.cons_append] at this
          · simp only [Option.some.injEq] at h
            have := parse_var_append h rest hrest
            rw [List.cons_append] at this
            rw [this]

/-- Text appended after a successful parse is left over, provided it does not
continue an identifier. -/
lemma parse_expr_append {it : List Char} {e : Expr} {rem : List Char}
    (h : parse_expr it = (some e, rem)) (rest : List Char) (hrest : noIdentAhead rest = true) :
    parse_expr (it ++ rest) = (some e, rem ++ rest) := by
  have h1 : parse_expr_fuel ((it ++ rest).length + 1) it = some (some e, rem) := by
    rw [parse_expr_fuel_eq _ it (by simp only [List.length_append]; omega), h]
  have h2 := parse_expr_fuel_append _ rest hrest it e rem h1
  rw [parse_expr_fuel_self] at h2
  exact Option.some.inj h2

/-! ## Parser: blanks, dispatch, and positions after a failure -/

lemma skip_space_append_spaces (w rest : List Char) (hw : w.all isSpaceChar = true) :
    skip_space (w ++ rest) = skip_space rest := by
  induction w with
  | nil => rfl
  | cons a l ih =>
      simp only [List.all_cons, Bool.and_eq_true] at hw
      simp only [List.cons_append, skip_space, hw.1, if_true]
      exact ih hw.2

lemma isSpaceChar_not_ident {ch : Char} (h : isSpaceChar ch = true) : isIdentChar ch = false := by
  simp only [isSpaceChar, Bool.or_eq_true, decide_eq_true_eq] at h
  rcases h with ((rfl | rfl) | rfl) | rfl <;> decide

lemma noIdentAhead_spaces_append (w : List Char) (ch : Char) (rest : List Char)
    (hw : w.all isSpaceChar = true) (hch : isIdentChar ch = false) :
    noIdentAhead (w ++ ch :: rest) = true := by
  cases w with
  | nil => simp [noIdentAhead, hch]
  | cons a l =>
      simp only [List.all_cons, Bool.and_eq_true] at hw
      simp [noIdentAhead, isSpaceChar_not_ident hw.1]

lemma noIdentAhead_spaces (w : List Char) (hw : w.all isSpaceChar = true) :
    noIdentAhead w = true := by
  cases w with
  | nil => rfl
  | cons a l =>
      simp only [List.all_cons, Bool.and_eq_true] at hw
      simp [noIdentAhead, isSpaceChar_not_ident hw.1]

/-- A failing `parse_lambda` returns the position it was called with. -/
lemma parse_lambda_none_pos {pe : List Char → Option (Option Expr × List Char)}
    {it rem : List Char} (h : parse_lambda pe it = some (none, rem)) : rem = it := by
  simp only [parse_lambda] at h
  cases hsk : skip_space it with
  | nil =>
      rw [hsk] at h
      exact (Prod.mk.inj (Option.some.inj h)).2.symm
  | cons ch it1 =>
      rw [hsk] at h
      simp only at h
      split_ifs at h with hch
      · exact (Prod.mk.inj (Option.some.inj h)).2.symm
      · rcases hpv : parse_var it1 with ⟨_ | param, it2⟩
        · rw [hpv] at h
          exact (Prod.mk.inj (Option.some.inj h)).2.symm
        · rw [hpv] at h
          simp only at h
          cases hsk2 : skip_space it2 with
          | nil =>
              rw [hsk2] at h
              exact (Prod.mk.inj (Option.some.inj h)).2.symm
          | cons ch2 it3 =>
              rw [hsk2] at h
              simp only at h
              split_ifs at h with hch2
              · exact (Prod.mk.inj (Option.some.inj h)).2.symm
              · rcases hr : pe it3 with _ | ⟨_ | body, body_end⟩
                · simp [hr] at h
                · rw [hr] at h
                  exact (Prod.mk.inj (Option.some.inj h)).2.symm
                · rw [hr] at h
                  cases param with
                  | var name => simp at h
                  | lambda p b => exact (Prod.mk.inj (Option.some.inj h)).2.symm
                  | app f a => exact (Prod.mk.inj (Option.some.inj h)).2.symm

/-- A failing `parse_app` returns the position it was called with. -/
lemma parse_app_none_pos {pe : List Char → Option (Option Expr × List Char)}
    {it rem : List Char} (h : parse_app pe it = some (none, rem)) : rem = it := by
  simp only [parse_app] at h
  cases hsk : skip_space it with
  | nil =>
      rw [hsk] at h
      exact (Prod.mk.inj (Option.some.inj h)).2.symm
  | cons ch it1 =>
      rw [hsk] at h
      simp only at h
      split_ifs at h with hch
      · exact (Prod.mk.inj (Option.some.inj h)).2.symm
      · rcases hr : pe it1 with _ | ⟨_ | func, it2⟩
        · simp [hr] at h
        · rw [hr] at h
          exact (Prod.mk.inj (Option.some.inj h)).2.symm
        · rw [hr] at h
          simp only at h
          cases hsk2 : skip_space it2 with
          | nil =>
              rw [hsk2] at h
              exact (Prod.mk.inj (Option.some.inj h)).2.symm
          | cons ch2 it3 =>
              rw [hsk2] at h
              simp only at h
              split_ifs at h with hch2
              · exact (Prod.mk.inj (Option.some.inj h)).2.symm
              · rcases hr2 : pe it3 with _ | ⟨_ | arg, it4⟩
                · simp [hr2] at h
                · rw [hr2] at h
                  exact (Prod.mk.inj (Option.some.inj h)).2.symm
                · rw [hr2] at h
                  simp only at h
                  cases hsk4 : skip_space it4 with
                  | nil =>
                      rw [hsk4] at h
                      exact (Prod.mk.inj (Option.some.inj h)).2.symm
                  | cons ch3 it5 =>
                      rw [hsk4] at h
                      simp only at h
                      split_ifs at h with hch3
                      · exact (Prod.mk.inj (Option.some.inj h)).2.symm
                      · simp at h

/-- A failing `parse_var` returns the position after the leading blanks. -/
lemma parse_var_none_pos {it rem : List Char} (h : parse_var it = (none, rem)) :
    rem = skip_space it := by
  simp only [parse_var] at h
  cases hsk : skip_space it with
  | nil =>
      rw [hsk] at h
      exact (Prod.mk.inj h).2.symm
  | cons ch rest =>
      rw [hsk] at h
      simp only at h
      split_ifs at h
      · exact (Prod.mk.inj h).2.symm
      · simp at h

lemma skip_space_idem (it : List Char) : skip_space (skip_space it) = skip_space it := by
  cases hsk : skip_space it with
  | nil => rfl
  | cons ch rest => exact skip_space_of_not_space rest (skip_space_head_not_space hsk)

/-- A failing `parse_expr` returns the position after the leading blanks. -/
lemma parse_expr_none_pos {it rem : List Char} (h : parse_expr it = (none, rem)) :
    rem = skip_space it := by
  have heq := parse_expr_eq it
  rw [h] at heq
  cases hsk : skip_space it with
  | nil =>
      rw [hsk] at heq
      exact (Prod.mk.inj (Option.some.inj heq)).2
  | cons ch rest =>
      rw [hsk] at heq
      simp only at heq
      split_ifs at heq with h1 h2
      · exact parse_lambda_none_pos heq.symm
      · exact parse_app_none_pos heq.symm
      · have := parse_var_none_pos (Option.some.inj heq).symm
        rw [this, ← hsk, skip_space_idem]

lemma skip_space_of_all_space (it : List Char) (h : it.all isSpaceChar = true) :
    skip_space it = [] := by
  have := skip_space_append_spaces it [] h
  rwa [List.append_nil] at this

lemma takeWhile_all_ident (l : List Char) : (l.takeWhile isIdentChar).all isIdentChar = true := by
  induction l with
  | nil => rfl
  | cons a l ih =>
      by_cases ha : isIdentChar a = true
      · simp only [List.takeWhile, ha, List.all_cons, Bool.true_and]
        exact ih
      · simp only [Bool.not_eq_true] at ha
        simp [List.takeWhile, ha]

lemma noIdentAhead_dropWhile (l : List Char) :
    noIdentAhead (l.dropWhile isIdentChar) = true := by
  induction l with
  | nil => rfl
  | cons a l ih =>
      by_cases ha : isIdentChar a = true
      · simp only [List.dropWhile, ha]
        exact ih
      · simp only [Bool.not_eq_true] at ha
        simp [List.dropWhile, ha, noIdentAhead]

/-- The variable production of `parse_expr`: the next character starts an identifier. -/
lemma parse_expr_var {it : List Char} {ch : Char} {rest : List Char}
    (hsk : skip_space it = ch :: rest) (hst : isIdentStart ch = true) :
    parse_expr it = (some (.var (String.mk ((ch :: rest).takeWhile isIdentChar))),
      (ch :: rest).dropWhile isIdentChar) := by
  have heq := parse_expr_eq it
  rw [hsk] at heq
  simp only [if_neg (isIdentStart_ne_percent hst), if_neg (isIdentStart_ne_langle hst)] at heq
  rw [Option.some.inj heq]
  exact parse_var_intro (skip_space_of_not_space rest (skip_space_head_not_space hsk)) hst

/-- The failing dispatch of `parse_expr`: the next character starts no production. -/
lemma parse_expr_no_production {it : List Char} {ch : Char} {rest : List Char}
    (hsk : skip_space it = ch :: rest) (h1 : ch ≠ '%') (h2 : ch ≠ '<')
    (hst : isIdentStart ch = false) : parse_expr it = (none, ch :: rest) := by
  have heq := parse_expr_eq it
  rw [hsk] at heq
  simp only [if_neg h1, if_neg h2] at heq
  rw [Option.some.inj heq]
  simp only [parse_var, skip_space_of_not_space rest (skip_space_head_not_space hsk), hst,
    Bool.not_false, if_true]

lemma parse_expr_blank_input {it : List Char} (hsk : skip_space it = []) :
    parse_expr it = (none, []) := by
  have heq := parse_expr_eq it
  rw [hsk] at heq
  exact Option.some.inj heq

/-! ## Evaluator: fuel and outcomes -/

lemma eval_fuel_succ {n : Nat} {e : Expr} {env : Env} {c : NameCounter}
    {res : Expr × NameCounter} (h : eval_fuel n e env c = some res) :
    eval_fuel (n + 1) e env c = some res := by
  induction n generalizing e c res with
  | zero => simp [eval_fuel] at h
  | succ n ih =>
      cases e with
      | var name =>
          rw [eval_fuel] at h ⊢
          cases hb : env name with
          | none => simpa only [hb] using h
          | some bound =>
              simp only [hb] at h ⊢
              exact ih h
      | lambda param body => simpa [eval_fuel] using h
      | app func arg =>
          rw [eval_fuel] at h ⊢
          cases hf : eval_fuel n func env c with
          | none => simp [hf] at h
          | some rf =>
              obtain ⟨ef, c1⟩ := rf
              simp only [hf] at h
              simp only [ih hf]
              cases ha : eval_fuel n arg env c1 with
              | none => simp [ha] at h
              | some ra =>
                  obtain ⟨ea, c2⟩ := ra
                  simp only [ha] at h
                  simp only [ih ha]
                  cases ef with
                  | lambda param body => exact ih h
                  | var name => exact h
                  | app f1 a1 => exact h

lemma eval_fuel_mono {n m : Nat} (hnm : n ≤ m) {e : Expr} {env : Env} {c : NameCounter}
    {res : Expr × NameCounter} (h : eval_fuel n e env c = some res) :
    eval_fuel m e env c = some res := by
  induction hnm with
  | refl => exact h
  | step _ ih => exact eval_fuel_succ ih

/-- A call of `eval` has at most one outcome. -/
lemma Evaluates.unique {e : Expr} {env : Env} {c : NameCounter} {r1 r2 : Expr × NameCounter}
    (h1 : Evaluates e env c r1) (h2 : Evaluates e env c r2) : r1 = r2 := by
  obtain ⟨n1, h1⟩ := h1
  obtain ⟨n2, h2⟩ := h2
  have e1 := eval_fuel_mono (Nat.le_max_left n1 n2) h1
  have e2 := eval_fuel_mono (Nat.le_max_right n1 n2) h2
  rw [e1] at e2
  exact Option.some.inj e2

lemma Evaluates.lambda (param : String) (body : Expr) (env : Env) (c : NameCounter) :
    Evaluates (.lambda param body) env c (.lambda param body, c) :=
  ⟨1, rfl⟩

lemma Evaluates.var_free {name : String} {env : Env} (c : NameCounter) (h : env name = none) :
    Evaluates (.var name) env c (.var name, c) :=
  ⟨1, by simp [eval_fuel, h]⟩

lemma Evaluates.var_bound {name : String} {env : Env} {bound : Expr} (c : NameCounter)
    (h : env name = some bound) (res : Expr × NameCounter) :
    Evaluates (.var name) env c res ↔ Evaluates bound env c res := by
  constructor
  · rintro ⟨n, hn⟩
    cases n with
    | zero => simp [eval_fuel] at hn
    | succ n =>
        simp only [eval_fuel, h] at hn
        exact ⟨n, hn⟩
  · rintro ⟨n, hn⟩
    exact ⟨n + 1, by simp only [eval_fuel, h]; exact hn⟩

/-- Inversion of a returning `eval` on an application: both parts returned. -/
lemma Evaluates.app_inv {func arg : Expr} {env : Env} {c : NameCounter}
    {res : Expr × NameCounter} (h : Evaluates (.app func arg) env c res) :
    ∃ ef c1 ea c2, Evaluates func env c (ef, c1) ∧ Evaluates arg env c1 (ea, c2) ∧
      ((∃ param body, ef = .lambda param body ∧
          Evaluates (substitute body param ea c2).1 env (substitute body param ea c2).2 res) ∨
        (ef.isLambda = false ∧ res = (.app ef ea, c2))) := by
  obtain ⟨n, hn⟩ := h
  cases n with
  | zero => simp [eval_fuel] at hn
  | succ n =>
      rw [eval_fuel] at hn
      cases hf : eval_fuel n func env c with
      | none => simp [hf] at hn
      | some rf =>
          obtain ⟨ef, c1⟩ := rf
          simp only [hf] at hn
          cases ha : eval_fuel n arg env c1 with
          | none => simp [ha] at hn
          | some ra =>
              obtain ⟨ea, c2⟩ := ra
              simp only [ha] at hn
              refine ⟨ef, c1, ea, c2, ⟨n, hf⟩, ⟨n, ha⟩, ?_⟩
              cases ef with
              | lambda param body => exact Or.inl ⟨param, body, rfl, n, hn⟩
              | var name => exact Or.inr ⟨rfl, (Option.some.inj hn).symm⟩
              | app f1 a1 => exact Or.inr ⟨rfl, (Option.some.inj hn).symm⟩

/-- The beta step: the function part returned an abstraction. -/
lemma Evaluates.app_beta {func arg : Expr} {env : Env} {c c1 c2 : NameCounter}
    {param : String} {body ea : Expr} (hf : Evaluates func env c (.lambda param body, c1))
    (ha : Evaluates arg env c1 (ea, c2)) (res : Expr × NameCounter) :
    Evaluates (.app func arg) env c res ↔
      Evaluates (substitute body param ea c2).1 env (substitute body param ea c2).2 res := by
  constructor
  · intro h
    obtain ⟨ef, d1, ea', d2, hf', ha', hcase⟩ := h.app_inv
    have e1 := Evaluates.unique hf hf'
    simp only [Prod.mk.injEq] at e1
    obtain ⟨rfl, rfl⟩ := e1
    have e2 := Evaluates.unique ha ha'
    simp only [Prod.mk.injEq] at e2
    obtain ⟨rfl, rfl⟩ := e2
    rcases hcase with ⟨p, b, hpb, hres⟩ | ⟨hnl, _⟩
    · simp only [Expr.lambda.injEq] at hpb
      obtain ⟨rfl, rfl⟩ := hpb
      exact hres
    · simp [Expr.isLambda] at hnl
  · rintro ⟨n3, h3⟩
    obtain ⟨n1, h1⟩ := hf
    obtain ⟨n2, h2⟩ := ha
    refine ⟨max n1 (max n2 n3) + 1, ?_⟩
    rw [eval_fuel, eval_fuel_mono (Nat.le_max_left _ _) h1]
    simp only
    rw [eval_fuel_mono (Nat.le_trans (Nat.le_max_left n2 n3) (Nat.le_max_right n1 _)) h2]
    simp only
    exact eval_fuel_mono (Nat.le_trans (Nat.le_max_right n2 n3) (Nat.le_max_right n1 _)) h3

/-- The stuck case: the function part returned something that is not an abstraction. -/
lemma Evaluates.app_stuck {func arg : Expr} {env : Env} {c c1 c2 : NameCounter}
    {ef ea : Expr} (hf : Evaluates func env c (ef, c1)) (hnl : ef.isLambda = false)
    (ha : Evaluates arg env c1 (ea, c2)) :
    Evaluates (.app func arg) env c (.app ef ea, c2) := by
  obtain ⟨n1, h1⟩ := hf
  obtain ⟨n2, h2⟩ := ha
  refine ⟨max n1 n2 + 1, ?_⟩
  rw [eval_fuel, eval_fuel_mono (Nat.le_max_left _ _) h1]
  simp only
  rw [eval_fuel_mono (Nat.le_max_right _ _) h2]
  cases ef with
  | lambda param body => simp [Expr.isLambda] at hnl
  | var name => rfl
  | app f1 a1 => rfl

lemma weakNormal_of_eval_fuel {n : Nat} {e : Expr} {env : Env} {c : NameCounter}
    {res : Expr × NameCounter} (h : eval_fuel n e env c = some res) :
    weakNormal env res.1 = true := by
  induction n generalizing e c res with
  | zero => simp [eval_fuel] at h
  | succ n ih =>
      cases e with
      | var name =>
          rw [eval_fuel] at h
          cases hb : env name with
          | none =>
              simp only [hb, Option.some.injEq] at h
              subst h
              simp [weakNormal, hb]
          | some bound =>
              simp only [hb] at h
              exact ih h
      | lambda param body =>
          simp only [eval_fuel, Option.some.injEq] at h
          subst h
          rfl
      | app func arg =>
          rw [eval_fuel] at h
          cases hf : eval_fuel n func env c with
          | none => simp [hf] at h
          | some rf =>
              obtain ⟨ef, c1⟩ := rf
              simp only [hf] at h
              cases ha : eval_fuel n arg env c1 with
              | none => simp [ha] at h
              | some ra =>
                  obtain ⟨ea, c2⟩ := ra
                  simp only [ha] at h
                  have w1 := ih hf
                  have w2 := ih ha
                  simp only at w1 w2
                  cases ef with
                  | lambda param body => exact ih h
                  | var name =>
                      simp only [Option.some.injEq] at h
                      subst h
                      show (!(Expr.var name).isLambda && weakNormal env (.var name)
                        && weakNormal env ea) = true
                      rw [w1, w2]
                      rfl
                  | app f1 a1 =>
                      simp only [Option.some.injEq] at h
                      subst h
                      show (!(Expr.app f1 a1).isLambda && weakNormal env (.app f1 a1)
                        && weakNormal env ea) = true
                      rw [w1, w2]
                      rfl

lemma Evaluates.chain {env : Env} {v : Expr} (c : NameCounter) (hv : v.isLambda = true)
    (first : String) (rest : List String) (h : bindingChain env (first :: rest) v) :
    Evaluates (.var first) env c (v, c) := by
  have hval : Evaluates v env c (v, c) := by
    cases v with
    | lambda param body => exact Evaluates.lambda param body env c
    | var name => simp [Expr.isLambda] at hv
    | app f a => simp [Expr.isLambda] at hv
  induction rest generalizing first with
  | nil => exact (Evaluates.var_bound c h (v, c)).mpr hval
  | cons next rest ih => exact (Evaluates.var_bound c h.1 (v, c)).mpr (ih next h.2)

/-! ## Evaluator: the self-application never returns -/

lemma substitute_self_application (x : String) (c : NameCounter) :
    substitute (.app (.var x) (.var x)) x (.lambda x (.app (.var x) (.var x))) c
      = (omegaTerm x, c) := by
  rw [substitute_app, substitute_var]
  simp only [if_true]
  rw [substitute_var]
  simp only [if_true]
  rfl

lemma eval_fuel_omegaTerm (n : Nat) (x : String) (env : Env) (c : NameCounter) :
    eval_fuel n (omegaTerm x) env c = none := by
  induction n with
  | zero => rfl
  | succ n ih =>
      cases n with
      | zero => rfl
      | succ m =>
          have hstep : eval_fuel (m + 1 + 1) (omegaTerm x) env c
              = eval_fuel (m + 1)
                  (substitute (.app (.var x) (.var x)) x (.lambda x (.app (.var x) (.var x)))
                    c).1 env
                  (substitute (.app (.var x) (.var x)) x (.lambda x (.app (.var x) (.var x)))
                    c).2 := rfl
          rw [hstep, substitute_self_application]
          exact ih

lemma not_evaluates_omegaTerm (x : String) (env : Env) (c : NameCounter)
    (res : Expr × NameCounter) : ¬ Evaluates (omegaTerm x) env c res := by
  rintro ⟨n, hn⟩
  rw [eval_fuel_omegaTerm] at hn
  exact Option.noConfusion hn

/-! ## Claims on the parser round trip and on substitution -/

/-- C1 (round trip).  For every expression in which every variable name and every
abstraction parameter is an identifier, `parse_expr` applied to the printed text
succeeds, stops at the end of the text, and returns the same tree. -/
theorem parse_print_roundtrip (e : Expr) (hwf : e.wellFormed = true) :
    parse_expr e.print = (some e, []) := by
  have h := parse_expr_fuel_print e (e.print.length + 1) [] hwf rfl (size_le_print_length e)
  rw [List.append_nil] at h
  simp [parse_expr, h]

/-- Witness for C1 at `<%x.x + y_1>`. -/
theorem parse_print_roundtrip_witness :
    (Expr.app (.lambda "x" (.var "x")) (.var "y_1")).wellFormed = true ∧
      parse_expr (Expr.app (.lambda "x" (.var "x")) (.var "y_1")).print
        = (some (Expr.app (.lambda "x" (.var "x")) (.var "y_1")), []) :=
  ⟨by decide, parse_print_roundtrip _ (by decide)⟩

/-- C2 as stated fails: in `%y.<y + y1>` the identifier `y1` is free; substituting
`Var(y)` for it renames the binder `y` to the generated name `y1`, which captures
the occurrence, and the call returns `%y1.<y1 + y1>`, in which the `y` of the
replacement is not free. -/
theorem substitute_hygiene_counterexample :
    "y1" ∈ (Expr.lambda "y" (.app (.var "y") (.var "y1"))).freeVars ∧
      "y" ∈ (Expr.var "y").freeVars ∧
      (substitute (.lambda "y" (.app (.var "y") (.var "y1"))) "y1" (.var "y")
          NameCounter.initial).1 = .lambda "y1" (.app (.var "y1") (.var "y1")) ∧
      "y" ∉ (substitute (.lambda "y" (.app (.var "y") (.var "y1"))) "y1" (.var "y")
          NameCounter.initial).1.freeVars := by
  decide

/-- C2, amended (replacement and hygiene).  When every fresh name generated during
the call is not already free in the abstraction whose parameter it replaces:
if `x` occurs free in `e`, every identifier free in `r` is free in
`substitute(e, x, r)`, and `x` is free in the result only if it is free in `r`. -/
theorem substitute_hygiene (e : Expr) (x : String) (r : Expr) (c : NameCounter)
    (hfresh : RenamesFresh e x r c) (hx : x ∈ e.freeVars) :
    (∀ z ∈ r.freeVars, z ∈ (substitute e x r c).1.freeVars) ∧
      (x ∈ (substitute e x r c).1.freeVars → x ∈ r.freeVars) := by
  constructor
  · intro z hz
    exact (mem_freeVars_substitute hfresh z).mpr (Or.inr ⟨hx, hz⟩)
  · intro h
    rcases (mem_freeVars_substitute hfresh x).mp h with ⟨h1, _⟩ | ⟨_, h2⟩
    · exact absurd rfl h1
    · exact h2

/-- Witness for C2 at `substitute(%y.<x + y>, x, y)`, which renames `y` to `y1`. -/
theorem substitute_hygiene_witness :
    RenamesFresh (.lambda "y" (.app (.var "x") (.var "y"))) "x" (.var "y") NameCounter.initial ∧
      "x" ∈ (Expr.lambda "y" (.app (.var "x") (.var "y"))).freeVars ∧
      ((∀ z ∈ (Expr.var "y").freeVars,
          z ∈ (substitute (.lambda "y" (.app (.var "x") (.var "y"))) "x" (.var "y")
            NameCounter.initial).1.freeVars) ∧
        ("x" ∈ (substitute (.lambda "y" (.app (.var "x") (.var "y"))) "x" (.var "y")
            NameCounter.initial).1.freeVars → "x" ∈ (Expr.var "y").freeVars)) :=
  have hfresh : RenamesFresh (.lambda "y" (.app (.var "x") (.var "y"))) "x" (.var "y")
      NameCounter.initial :=
    RenamesFresh.rename (by decide) (by decide) (by decide)
      (RenamesFresh.app (RenamesFresh.var _ _ _ _) (RenamesFresh.var _ _ _ _))
      (RenamesFresh.descend (by decide) (by decide)
        (RenamesFresh.app (RenamesFresh.var _ _ _ _) (RenamesFresh.var _ _ _ _)))
  ⟨hfresh, by decide, substitute_hygiene _ _ _ _ hfresh (by decide)⟩

/-- C4 as stated fails: `x` is not free in `%y.y`, yet substituting `Var(y)` for `x`
renames the binder and returns `%y1.y1`, which is not the tree `%y.y`. -/
theorem substitute_vacuous_counterexample :
    "x" ∉ (Expr.lambda "y" (.var "y")).freeVars ∧
      (substitute (.lambda "y" (.var "y")) "x" (.var "y") NameCounter.initial).1
        ≠ .lambda "y" (.var "y") := by
  decide

/-- C4, amended (vacuous substitution).  If `x` does not occur free in `e` and no
abstraction of `e` outside the abstractions with parameter `x` has a parameter
that is free in `r`, then `substitute(e, x, r)` is structurally identical to `e`
(and the fresh-name counter is left as it was). -/
theorem substitute_vacuous (e : Expr) (x : String) (r : Expr) (c : NameCounter)
    (hx : x ∉ e.freeVars) (hno : renameNeeded x r e = false) :
    substitute e x r c = (e, c) := by
  rw [substitute_of_no_rename e x r c hno, replaceFree_of_not_free e x r hx]

/-- Witness for C4 at `substitute(%z.<z + %x.x>, x, <y + %z.z>)`. -/
theorem substitute_vacuous_witness :
    "x" ∉ (Expr.lambda "z" (.app (.var "z") (.lambda "x" (.var "x")))).freeVars ∧
      renameNeeded "x" (.app (.var "y") (.lambda "z" (.var "z")))
        (.lambda "z" (.app (.var "z") (.lambda "x" (.var "x")))) = false ∧
      substitute (.lambda "z" (.app (.var "z") (.lambda "x" (.var "x")))) "x"
          (.app (.var "y") (.lambda "z" (.var "z"))) NameCounter.initial
        = (.lambda "z" (.app (.var "z") (.lambda "x" (.var "x"))), NameCounter.initial) :=
  ⟨by decide, by decide, substitute_vacuous _ _ _ _ (by decide) (by decide)⟩

/-- C5 as stated fails: `y1` is free in `%y.y1` and differs from `x`; substituting
`Var(y)` for `x` renames the binder `y` to the generated name `y1`, and in the
result `%y1.y1` the identifier `y1` is bound. -/
theorem substitute_rename_counterexample :
    "y1" ≠ "x" ∧ "y1" ∈ (Expr.lambda "y" (.var "y1")).freeVars ∧
      (substitute (.lambda "y" (.var "y1")) "x" (.var "y") NameCounter.initial).1
        = .lambda "y1" (.var "y1") ∧
      "y1" ∉ (substitute (.lambda "y" (.var "y1")) "x" (.var "y")
          NameCounter.initial).1.freeVars := by
  decide

/-- C5, amended (alpha-renaming keeps the free identifiers).  When every fresh name
generated during the call is not already free in the abstraction whose parameter
it replaces, every identifier other than `x` that is free in `e` is still free
in `substitute(e, x, r)`. -/
theorem substitute_rename_keeps_free (e : Expr) (x : String) (r : Expr) (c : NameCounter)
    (hfresh : RenamesFresh e x r c) (z : String) (hzx : z ≠ x) (hz : z ∈ e.freeVars) :
    z ∈ (substitute e x r c).1.freeVars :=
  (mem_freeVars_substitute hfresh z).mpr (Or.inl ⟨hzx, hz⟩)

/-- Witness for C5 at `substitute(%y.<y + z>, x, y)`, which renames `y` to `y1`; no
identifier of the input ends in a digit, so the rename is fresh. -/
theorem substitute_rename_keeps_free_witness :
    RenamesFresh (.lambda "y" (.app (.var "y") (.var "z"))) "x" (.var "y") NameCounter.initial ∧
      "z" ≠ "x" ∧ "z" ∈ (Expr.lambda "y" (.app (.var "y") (.var "z"))).freeVars ∧
      "z" ∈ (substitute (.lambda "y" (.app (.var "y") (.var "z"))) "x" (.var "y")
          NameCounter.initial).1.freeVars :=
  have hfresh : RenamesFresh (.lambda "y" (.app (.var "y") (.var "z"))) "x" (.var "y")
      NameCounter.initial :=
    renamesFresh_of_no_digit _ _ _ _ (by decide) (by decide)
  ⟨hfresh, by decide, by decide,
    substitute_rename_keeps_free _ _ _ _ hfresh "z" (by decide) (by decide)⟩

/-- C6 (closed replacement never renames).  For every expression `e`, identifier `x`
and replacement `r` without free identifiers, `substitute(e, x, r)` leaves the
fresh-name counter unchanged and returns `e` with exactly the free occurrences
of `x` replaced by `r`: every abstraction parameter of `e` is kept, and a subtree
under an abstraction whose parameter is `x` is returned unchanged. -/
theorem substitute_closed (e : Expr) (x : String) (r : Expr) (c : NameCounter)
    (hclosed : r.freeVars = ∅) : substitute e x r c = (replaceFree x r e, c) :=
  substitute_of_no_rename e x r c (renameNeeded_of_closed e x r hclosed)

/-- Witness for C6 at `substitute(%y.<x + %x.x>, x, %y.y)`. -/
theorem substitute_closed_witness :
    (Expr.lambda "y" (.var "y")).freeVars = ∅ ∧
      substitute (.lambda "y" (.app (.var "x") (.lambda "x" (.var "x")))) "x"
          (.lambda "y" (.var "y")) NameCounter.initial
        = (.lambda "y" (.app (.lambda "y" (.var "y")) (.lambda "x" (.var "x"))),
            NameCounter.initial) :=
  ⟨by decide, substitute_closed _ _ _ _ (by decide)⟩

/-! ## Claims on the evaluator -/

/-- C7 (result in weak normal form).  For every expression, environment and counter
state, whenever `eval(e, env)` returns `r`, `r` is in weak normal form relative
to `env`: an abstraction, or a variable without binding in `env`, or an
application whose function part is not an abstraction and whose parts are in
weak normal form. -/
theorem eval_weak_normal (e : Expr) (env : Env) (c : NameCounter) (res : Expr × NameCounter)
    (h : Evaluates e env c res) : weakNormal env res.1 = true := by
  obtain ⟨n, hn⟩ := h
  exact weakNormal_of_eval_fuel hn

/-- Witness for C7 at `<<%x.x + f> + <%x.x + %y.y>>` under the empty environment,
which evaluates to `<f + %y.y>`. -/
theorem eval_weak_normal_witness :
    Evaluates
        (.app (.app (.lambda "x" (.var "x")) (.var "f"))
          (.app (.lambda "x" (.var "x")) (.lambda "y" (.var "y"))))
        Env.empty NameCounter.initial
        (.app (.var "f") (.lambda "y" (.var "y")), NameCounter.initial) ∧
      weakNormal Env.empty (Expr.app (.var "f") (.lambda "y" (.var "y"))) = true :=
  have h : Evaluates
      (.app (.app (.lambda "x" (.var "x")) (.var "f"))
        (.app (.lambda "x" (.var "x")) (.lambda "y" (.var "y"))))
      Env.empty NameCounter.initial
      (.app (.var "f") (.lambda "y" (.var "y")), NameCounter.initial) := ⟨4, rfl⟩
  ⟨h, eval_weak_normal _ _ _ _ h⟩

/-- C8 (beta-reduction step).  Whenever the function part `f` evaluates to
`Abstraction(p, b)` and the argument part `a` evaluates to `a'`,
`eval(Application(f, a), env)` has the outcome of `eval(substitute(b, p, a'), env)`.
In particular `Application(Abstraction(x, Variable(x)), v)` evaluates to `v` for
every abstraction `v` and every environment, and `<%x.x + %y.y>` evaluates to
`%y.y` under the empty environment. -/
theorem eval_beta :
    (∀ (env : Env) (f a : Expr) (p : String) (b a' : Expr) (c c1 c2 : NameCounter),
        Evaluates f env c (.lambda p b, c1) → Evaluates a env c1 (a', c2) →
        ∀ res, Evaluates (.app f a) env c res ↔
          Evaluates (substitute b p a' c2).1 env (substitute b p a' c2).2 res) ∧
      (∀ (env : Env) (x q : String) (t : Expr) (c : NameCounter),
        Evaluates (.app (.lambda x (.var x)) (.lambda q t)) env c (.lambda q t, c)) ∧
      Evaluates (.app (.lambda "x" (.var "x")) (.lambda "y" (.var "y"))) Env.empty
        NameCounter.initial (.lambda "y" (.var "y"), NameCounter.initial) := by
  have hid : ∀ (env : Env) (x q : String) (t : Expr) (c : NameCounter),
      Evaluates (.app (.lambda x (.var x)) (.lambda q t)) env c (.lambda q t, c) := by
    intro env x q t c
    rw [Evaluates.app_beta (Evaluates.lambda x (.var x) env c) (Evaluates.lambda q t env c),
      substitute_var]
    simp only [if_true]
    exact Evaluates.lambda q t env c
  exact ⟨fun env f a p b a' c c1 c2 hf ha res => Evaluates.app_beta hf ha res, hid,
    hid _ _ _ _ _⟩

/-- Witness for C8 at `<k + %z.z>` with the binding `k = %x.%y.x`: the function part
evaluates to `%x.%y.x`, and the application evaluates to `%y.%z.z`, the outcome of
evaluating `substitute(%y.x, x, %z.z)`. -/
theorem eval_beta_witness :
    Evaluates (.var "k") (Env.empty.bind "k" (.lambda "x" (.lambda "y" (.var "x"))))
        NameCounter.initial (.lambda "x" (.lambda "y" (.var "x")), NameCounter.initial) ∧
      Evaluates (.lambda "z" (.var "z"))
        (Env.empty.bind "k" (.lambda "x" (.lambda "y" (.var "x"))))
        NameCounter.initial (.lambda "z" (.var "z"), NameCounter.initial) ∧
      (Evaluates (.app (.var "k") (.lambda "z" (.var "z")))
          (Env.empty.bind "k" (.lambda "x" (.lambda "y" (.var "x"))))
          NameCounter.initial (.lambda "y" (.lambda "z" (.var "z")), NameCounter.initial) ↔
        Evaluates
          (substitute (.lambda "y" (.var "x")) "x" (.lambda "z" (.var "z"))
            NameCounter.initial).1
          (Env.empty.bind "k" (.lambda "x" (.lambda "y" (.var "x"))))
          (substitute (.lambda "y" (.var "x")) "x" (.lambda "z" (.var "z"))
            NameCounter.initial).2
          (.lambda "y" (.lambda "z" (.var "z")), NameCounter.initial)) :=
  have hf : Evaluates (.var "k") (Env.empty.bind "k" (.lambda "x" (.lambda "y" (.var "x"))))
      NameCounter.initial (.lambda "x" (.lambda "y" (.var "x")), NameCounter.initial) :=
    ⟨2, rfl⟩
  have ha : Evaluates (.lambda "z" (.var "z"))
      (Env.empty.bind "k" (.lambda "x" (.lambda "y" (.var "x"))))
      NameCounter.initial (.lambda "z" (.var "z"), NameCounter.initial) := ⟨1, rfl⟩
  ⟨hf, ha, eval_beta.1 _ _ _ _ _ _ _ _ _ hf ha _⟩

/-- C9 (stuck application preserved).  If `eval(f, env)` returns `f'` that is not an
abstraction and `eval(a, env)` returns `a'`, then `eval(Application(f, a), env)`
returns `Application(f', a')`.  In particular, for identifiers `f`, `g` without
binding in `env`, `Application(Variable(f), Variable(g))` evaluates to itself. -/
theorem eval_stuck :
    (∀ (env : Env) (f a f' a' : Expr) (c c1 c2 : NameCounter),
        Evaluates f env c (f', c1) → f'.isLambda = false → Evaluates a env c1 (a', c2) →
        Evaluates (.app f a) env c (.app f' a', c2)) ∧
      (∀ (env : Env) (f g : String) (c : NameCounter), env f = none → env g = none →
        Evaluates (.app (.var f) (.var g)) env c (.app (.var f) (.var g), c)) :=
  ⟨fun _ _ _ _ _ _ _ _ hf hnl ha => Evaluates.app_stuck hf hnl ha,
    fun _ _ _ c hf hg =>
      Evaluates.app_stuck (Evaluates.var_free c hf) rfl (Evaluates.var_free c hg)⟩

/-- Witness for C9 at `<<f + g> + <%x.x + h>>` under the empty environment. -/
theorem eval_stuck_witness :
    Evaluates (.app (.var "f") (.var "g")) Env.empty NameCounter.initial
        (.app (.var "f") (.var "g"), NameCounter.initial) ∧
      (Expr.app (.var "f") (.var "g")).isLambda = false ∧
      Evaluates (.app (.lambda "x" (.var "x")) (.var "h")) Env.empty NameCounter.initial
        (.var "h", NameCounter.initial) ∧
      Evaluates (.app (.app (.var "f") (.var "g")) (.app (.lambda "x" (.var "x")) (.var "h")))
        Env.empty NameCounter.initial
        (.app (.app (.var "f") (.var "g")) (.var "h"), NameCounter.initial) :=
  ⟨eval_stuck.2 Env.empty "f" "g" NameCounter.initial rfl rfl, rfl, ⟨3, rfl⟩,
    eval_stuck.1 _ _ _ _ _ _ _ _ (eval_stuck.2 Env.empty "f" "g" NameCounter.initial rfl rfl)
      rfl ⟨3, rfl⟩⟩

/-- C10 (environment lookup and chaining).  If `env` binds `n` to `b`, then
`eval(Variable(n), env)` has exactly the outcome of `eval(b, env)` (the same
result, or both do not return); hence a chain of bindings `n1 = n2`, ...,
`nk = v` with `v` an abstraction evaluates `Variable(n1)` to `v`; if `env` has no
binding for `n`, `eval(Variable(n), env)` is `Variable(n)`; and with the single
binding `a = %x.x`, evaluating `a` yields `%x.x`. -/
theorem eval_variable :
    (∀ (env : Env) (n : String) (b : Expr) (c : NameCounter), env n = some b →
        ∀ res, Evaluates (.var n) env c res ↔ Evaluates b env c res) ∧
      (∀ (env : Env) (n1 : String) (names : List String) (v : Expr) (c : NameCounter),
        bindingChain env (n1 :: names) v → v.isLambda = true →
        Evaluates (.var n1) env c (v, c)) ∧
      (∀ (env : Env) (n : String) (c : NameCounter), env n = none →
        Evaluates (.var n) env c (.var n, c)) ∧
      Evaluates (.var "a") (Env.empty.bind "a" (.lambda "x" (.var "x"))) NameCounter.initial
        (.lambda "x" (.var "x"), NameCounter.initial) :=
  ⟨fun _ _ _ c h res => Evaluates.var_bound c h res,
    fun _ n1 names _ c h hv => Evaluates.chain c hv n1 names h,
    fun _ _ c h => Evaluates.var_free c h,
    (Evaluates.var_bound NameCounter.initial rfl _).mpr (Evaluates.lambda _ _ _ _)⟩

/-- Witness for C10 with the bindings `a = b`, `b = c`, `c = %x.x`: the chain resolves
`a` to `%x.x`, `a` has the outcome of `b`, and the unbound `d` evaluates to itself. -/
theorem eval_variable_witness :
    bindingChain
        (((Env.empty.bind "c" (.lambda "x" (.var "x"))).bind "b" (.var "c")).bind "a" (.var "b"))
        ["a", "b", "c"] (.lambda "x" (.var "x")) ∧
      Evaluates (.var "a")
        (((Env.empty.bind "c" (.lambda "x" (.var "x"))).bind "b" (.var "c")).bind "a" (.var "b"))
        NameCounter.initial (.lambda "x" (.var "x"), NameCounter.initial) ∧
      (Evaluates (.var "a")
          (((Env.empty.bind "c" (.lambda "x" (.var "x"))).bind "b" (.var "c")).bind "a"
            (.var "b"))
          NameCounter.initial (.lambda "x" (.var "x"), NameCounter.initial) ↔
        Evaluates (.var "b")
          (((Env.empty.bind "c" (.lambda "x" (.var "x"))).bind "b" (.var "c")).bind "a"
            (.var "b"))
          NameCounter.initial (.lambda "x" (.var "x"), NameCounter.initial)) ∧
      Evaluates (.var "d")
        (((Env.empty.bind "c" (.lambda "x" (.var "x"))).bind "b" (.var "c")).bind "a" (.var "b"))
        NameCounter.initial (.var "d", NameCounter.initial) :=
  have hchain : bindingChain
      (((Env.empty.bind "c" (.lambda "x" (.var "x"))).bind "b" (.var "c")).bind "a" (.var "b"))
      ["a", "b", "c"] (.lambda "x" (.var "x")) := ⟨rfl, rfl, rfl⟩
  ⟨hchain, eval_variable.2.1 _ "a" ["b", "c"] _ NameCounter.initial hchain rfl,
    eval_variable.1 _ "a" (.var "b") NameCounter.initial rfl _,
    eval_variable.2.2.1 _ "d" NameCounter.initial rfl⟩

/-! ## Claims on divergence and evaluation order -/

/-- C11 (omega diverges).  For every parameter name, environment and counter state,
evaluating `<%x.<x + x> + %x.<x + x>>` does not return: no amount of fuel gives a
result; and when the environment binds a name to this term, evaluating the
variable of that name does not return either. -/
theorem eval_omega_diverges :
    (∀ (x : String) (env : Env) (c : NameCounter) (fuel : Nat),
        eval_fuel fuel (omegaTerm x) env c = none) ∧
      (∀ (x : String) (env : Env) (c : NameCounter) (res : Expr × NameCounter),
        ¬ Evaluates (omegaTerm x) env c res) ∧
      (∀ (x name : String) (env : Env) (c : NameCounter) (res : Expr × NameCounter),
        env name = some (omegaTerm x) → ¬ Evaluates (.var name) env c res) :=
  ⟨fun x env c fuel => eval_fuel_omegaTerm fuel x env c,
    fun x env c res => not_evaluates_omegaTerm x env c res,
    fun x _ env c res hbound h =>
      not_evaluates_omegaTerm x env c res ((Evaluates.var_bound c hbound res).mp h)⟩

/-- Witness for C11 with the binding `omega = <%x.<x + x> + %x.<x + x>>` and the input
`omega`, from the initial counter state. -/
theorem eval_omega_diverges_witness :
    (Env.empty.bind "omega" (omegaTerm "x")) "omega" = some (omegaTerm "x") ∧
      ¬ Evaluates (.var "omega") (Env.empty.bind "omega" (omegaTerm "x")) NameCounter.initial
        (omegaTerm "x", NameCounter.initial) :=
  ⟨rfl, eval_omega_diverges.2.2 "x" "omega" _ NameCounter.initial _ rfl⟩

/-- C12 (eager evaluation of arguments).  If `eval(Application(f, a), env)` returns,
then `eval(f, env)` returned and `eval(a, env)`, run next, returned too; so an
application whose argument diverges diverges, even when the function ignores
its parameter: `<%x.%y.y + <%x.<x + x> + %x.<x + x>>>` has no result. -/
theorem eval_eager :
    (∀ (env : Env) (f a : Expr) (c : NameCounter) (res : Expr × NameCounter),
        Evaluates (.app f a) env c res →
        ∃ f' c1 a' c2, Evaluates f env c (f', c1) ∧ Evaluates a env c1 (a', c2)) ∧
      (∀ (env : Env) (f a : Expr) (c : NameCounter),
        (∀ c1 ra, ¬ Evaluates a env c1 ra) → ∀ res, ¬ Evaluates (.app f a) env c res) ∧
      (∀ (env : Env) (c : NameCounter) (res : Expr × NameCounter),
        ¬ Evaluates (.app (.lambda "x" (.lambda "y" (.var "y"))) (omegaTerm "x")) env c res) := by
  refine ⟨?_, ?_, ?_⟩
  · intro env f a c res h
    obtain ⟨ef, c1, ea, c2, hf, ha, _⟩ := h.app_inv
    exact ⟨ef, c1, ea, c2, hf, ha⟩
  · intro env f a c hdiv res h
    obtain ⟨ef, c1, ea, c2, _, ha, _⟩ := h.app_inv
    exact hdiv c1 (ea, c2) ha
  · intro env c res h
    obtain ⟨ef, c1, ea, c2, _, ha, _⟩ := h.app_inv
    exact not_evaluates_omegaTerm "x" env c1 (ea, c2) ha

/-- Witness for C12 at `<%x.x + <%x.x + %y.y>>`, whose argument `<%x.x + %y.y>`
returns `%y.y`. -/
theorem eval_eager_witness :
    Evaluates
        (.app (.lambda "x" (.var "x")) (.app (.lambda "x" (.var "x")) (.lambda "y" (.var "y"))))
        Env.empty NameCounter.initial (.lambda "y" (.var "y"), NameCounter.initial) ∧
      ∃ f' c1 a' c2,
        Evaluates (.lambda "x" (.var "x")) Env.empty NameCounter.initial (f', c1) ∧
          Evaluates (.app (.lambda "x" (.var "x")) (.lambda "y" (.var "y"))) Env.empty c1
            (a', c2) :=
  have h : Evaluates
      (.app (.lambda "x" (.var "x")) (.app (.lambda "x" (.var "x")) (.lambda "y" (.var "y"))))
      Env.empty NameCounter.initial (.lambda "y" (.var "y"), NameCounter.initial) := ⟨3, rfl⟩
  ⟨h, eval_eager.1 _ _ _ _ _ h⟩

/-! ## Claims on the parser -/

/-- C13 (parse failure on partial input).  For all strings `s1`, `s2` that each parse
completely and every run of whitespace `w`, on the input `"<" s1 w "+" s2`, which
lacks the closing `'>'`, `parse_expr` returns no match, so the top-level check
rejects it; `"<%x.x + y"` is such an input. -/
theorem parse_partial_input_fails (s1 s2 w : List Char) (e1 e2 : Expr)
    (h1 : parse_expr s1 = (some e1, [])) (h2 : parse_expr s2 = (some e2, []))
    (hw : w.all isSpaceChar = true) :
    parse_expr ('<' :: (s1 ++ (w ++ '+' :: s2))) = (none, '<' :: (s1 ++ (w ++ '+' :: s2))) ∧
      parsed_whole ('<' :: (s1 ++ (w ++ '+' :: s2))) = false ∧
      parse_expr ['<', '%', 'x', '.', 'x', ' ', '+', ' ', 'y']
        = (none, ['<', '%', 'x', '.', 'x', ' ', '+', ' ', 'y']) := by
  have hfail : parse_expr ('<' :: (s1 ++ (w ++ '+' :: s2)))
      = (none, '<' :: (s1 ++ (w ++ '+' :: s2))) := by
    have heq := parse_expr_eq ('<' :: (s1 ++ (w ++ '+' :: s2)))
    have hskip : skip_space ('<' :: (s1 ++ (w ++ '+' :: s2)))
        = '<' :: (s1 ++ (w ++ '+' :: s2)) := skip_space_of_not_space _ (by decide)
    have hne : ('<' : Char) ≠ '%' := by decide
    have hfunc : parse_expr (s1 ++ (w ++ '+' :: s2)) = (some e1, w ++ '+' :: s2) := by
      have := parse_expr_append h1 (w ++ '+' :: s2)
        (noIdentAhead_spaces_append w '+' s2 hw (by decide))
      rwa [List.nil_append] at this
    have hplus : skip_space (w ++ '+' :: s2) = '+' :: s2 := by
      rw [skip_space_append_spaces w _ hw]
      exact skip_space_of_not_space _ (by decide)
    have hend : skip_space ([] : List Char) = [] := rfl
    rw [hskip] at heq
    simp only [if_neg hne, if_true, parse_app, hskip, hfunc, hplus, h2, hend, ne_eq,
      not_true_eq_false, if_false] at heq
    exact Option.some.inj heq
  refine ⟨hfail, ?_, by decide⟩
  simp [parsed_whole, hfail]

/-- Witness for C13 at `s1 = "%x.x"`, `w = " "`, `s2 = " y"`: the input `"<%x.x + y"`. -/
theorem parse_partial_input_fails_witness :
    parse_expr ['%', 'x', '.', 'x'] = (some (.lambda "x" (.var "x")), []) ∧
      parse_expr [' ', 'y'] = (some (.var "y"), []) ∧
      [' '].all isSpaceChar = true ∧
      parse_expr ('<' :: (['%', 'x', '.', 'x'] ++ ([' '] ++ '+' :: [' ', 'y'])))
        = (none, '<' :: (['%', 'x', '.', 'x'] ++ ([' '] ++ '+' :: [' ', 'y']))) :=
  ⟨by decide, by decide, by decide,
    (parse_partial_input_fails ['%', 'x', '.', 'x'] [' ', 'y'] [' ']
      (.lambda "x" (.var "x")) (.var "y") (by decide) (by decide) (by decide)).1⟩

/-- C14 (complete-consumption check).  The top-level check succeeds exactly when
`parse_expr` returns a tree and stops at the end of the input; so for every
string `s` that parses completely to `e` and every non-empty run of whitespace
`w`, on `s ++ w` the sub-parse returns `e` but leaves `w` unconsumed, and the
top-level check fails. -/
theorem parse_trailing_space_fails (s w : List Char) (e : Expr)
    (hs : parse_expr s = (some e, [])) (hne : w ≠ []) (hw : w.all isSpaceChar = true) :
    (∀ line, parsed_whole line = true ↔ ∃ tree, parse_expr line = (some tree, [])) ∧
      parse_expr (s ++ w) = (some e, w) ∧ parsed_whole (s ++ w) = false := by
  have happ : parse_expr (s ++ w) = (some e, w) := by
    have := parse_expr_append hs w (noIdentAhead_spaces w hw)
    rwa [List.nil_append] at this
  refine ⟨fun line => ?_, happ, ?_⟩
  · rcases hp : parse_expr line with ⟨_ | tree, _ | ⟨ch, rem⟩⟩ <;> simp [parsed_whole, hp]
  · cases w with
    | nil => exact absurd rfl hne
    | cons ch rest => simp [parsed_whole, happ]

/-- Witness for C14 at `s = "<f + g>"`, `w = " "` followed by a tab. -/
theorem parse_trailing_space_fails_witness :
    parse_expr ['<', 'f', ' ', '+', ' ', 'g', '>']
        = (some (.app (.var "f") (.var "g")), []) ∧
      [' ', '\t'] ≠ [] ∧ [' ', '\t'].all isSpaceChar = true ∧
      parse_expr (['<', 'f', ' ', '+', ' ', 'g', '>'] ++ [' ', '\t'])
        = (some (.app (.var "f") (.var "g")), [' ', '\t']) ∧
      parsed_whole (['<', 'f', ' ', '+', ' ', 'g', '>'] ++ [' ', '\t']) = false :=
  ⟨by decide, by decide, by decide,
    (parse_trailing_space_fails ['<', 'f', ' ', '+', ' ', 'g', '>'] [' ', '\t']
      (.app (.var "f") (.var "g")) (by decide) (by decide) (by decide)).2⟩

/-- C15 at the failing input `" 1"` (a blank, then a digit): `parse_var` and
`parse_expr` return no match together with the position after the blank, not the
position they were called with, while `parse_lambda` and `parse_app` return no
match together with the position they were called with. -/
theorem parse_failure_position :
    parse_var [' ', '1'] = (none, ['1']) ∧
      parse_expr [' ', '1'] = (none, ['1']) ∧
      parse_lambda (fun s => some (parse_expr s)) [' ', '1'] = some (none, [' ', '1']) ∧
      parse_app (fun s => some (parse_expr s)) [' ', '1'] = some (none, [' ', '1']) := by
  decide

/-- C16 (dispatch and variable production).  `parse_expr` decides on the first
character `c` after the leading whitespace.  On an empty or all-whitespace input
it returns no match; if `c` is none of `'%'`, `'<'`, a letter or `'_'` (such as a
digit, `'+'`, `'>'`, `'.'`) it returns no match; if `c` is a letter or `'_'` it
returns `Variable(n)` for the longest run `n` of letters, digits and `'_'` that
starts at `c`, together with the position just after `n`. -/
theorem parse_expr_dispatch :
    (∀ it : List Char, it.all isSpaceChar = true → parse_expr it = (none, [])) ∧
      (∀ (it : List Char) (c : Char) (rest : List Char), skip_space it = c :: rest →
        c ≠ '%' → c ≠ '<' → isIdentStart c = false → (parse_expr it).1 = none) ∧
      (isIdentStart '7' = false ∧ isIdentStart '+' = false ∧ isIdentStart '>' = false ∧
        isIdentStart '.' = false) ∧
      (∀ (it : List Char) (c : Char) (rest : List Char), skip_space it = c :: rest →
        isIdentStart c = true →
        ∃ n rem, c :: rest = n ++ rem ∧ n.head? = some c ∧ n.all isIdentChar = true ∧
          noIdentAhead rem = true ∧ parse_expr it = (some (.var (String.mk n)), rem)) := by
  refine ⟨fun it h => parse_expr_blank_input (skip_space_of_all_space it h), ?_, by decide, ?_⟩
  · intro it c rest hsk h1 h2 hst
    rw [parse_expr_no_production hsk h1 h2 hst]
  · intro it c rest hsk hst
    refine ⟨(c :: rest).takeWhile isIdentChar, (c :: rest).dropWhile isIdentChar,
      (List.takeWhile_append_dropWhile _ _).symm, ?_, takeWhile_all_ident _,
      noIdentAhead_dropWhile _, parse_expr_var hsk hst⟩
    simp [List.takeWhile, isIdentStart_isIdentChar hst]

/-- Witness for C16 at the input `"  ab_1+c"`, at `" 7"` and at `"   "`. -/
theorem parse_expr_dispatch_witness :
    parse_expr [' ', ' ', ' '] = (none, []) ∧
      (parse_expr [' ', '7']).1 = none ∧
      ∃ n rem, ['a', 'b', '_', '1', '+', 'c'] = n ++ rem ∧ n.head? = some 'a' ∧
        n.all isIdentChar = true ∧ noIdentAhead rem = true ∧
        parse_expr [' ', ' ', 'a', 'b', '_', '1', '+', 'c'] = (some (.var (String.mk n)), rem) :=
  ⟨parse_expr_dispatch.1 [' ', ' ', ' '] (by decide),
    parse_expr_dispatch.2.1 [' ', '7'] '7' [] (by decide) (by decide) (by decide) (by decide),
    parse_expr_dispatch.2.2.2 [' ', ' ', 'a', 'b', '_', '1', '+', 'c'] 'a'
      ['b', '_', '1', '+', 'c'] (by decide) (by decide)⟩

/-! ## Claims on free variables, fresh names and termination of substitution -/

/-- C17 (free-variable analysis is the textbook one).  For every expression `e`,
accumulator `acc` and bound set `B`, `collect_free_vars(e, acc, B)` leaves
`acc ∪ (FV(e) \ B)` in the accumulator.  In particular the sibling of an
abstraction inside an application is analysed with the bound set `B` of the
application, also when the parameter was already in `B`: in `<%x.x + x>` the
second `x` is free, and in `%x.<%x.x + x>` it is bound. -/
theorem collect_free_vars_textbook :
    (∀ (e : Expr) (acc B : Finset String),
        collect_free_vars e acc B = acc ∪ (e.freeVars \ B)) ∧
      (∀ (p : String) (body sibling : Expr) (acc B : Finset String),
        collect_free_vars (.app (.lambda p body) sibling) acc B
          = collect_free_vars sibling (collect_free_vars body acc (insert p B)) B) ∧
      collect_free_vars (.app (.lambda "x" (.var "x")) (.var "x")) ∅ ∅ = {"x"} ∧
      collect_free_vars (.lambda "x" (.app (.lambda "x" (.var "x")) (.var "x"))) ∅ ∅ = ∅ ∧
      collect_free_vars (.app (.lambda "x" (.var "x")) (.var "x")) ∅ {"x"} = ∅ :=
  ⟨collect_free_vars_eq, fun _ _ _ _ _ => rfl, by decide, by decide, by decide⟩

/-- C20 (substitution always terminates).  For every expression, identifier,
replacement and counter state, `substitute` returns: a recursion depth of
`substituteBound expr arg` is never exceeded, on the rename-and-retry path too,
so the total function `substitute` is the result of the recursion.  The cascade
is covered: in `substitute(%y.y, x, <y + y1>)` the generated parameter `y1` is
itself free in the replacement and is renamed again, to `y11`. -/
theorem substitute_terminates :
    (∀ (e : Expr) (x : String) (r : Expr) (c : NameCounter) (fuel : Nat),
        substituteBound e r ≤ fuel →
        substituteFuel fuel e x r c = some (substitute e x r c)) ∧
      (∀ (e : Expr) (x : String) (r : Expr) (c : NameCounter),
        ∃ fuel res, substituteFuel fuel e x r c = some res) ∧
      (substitute (.lambda "y" (.var "y")) "x" (.app (.var "y") (.var "y1"))
          NameCounter.initial).1 = .lambda "y11" (.var "y11") :=
  ⟨fun e x r c _ h => substituteFuel_of_le e x r c h,
    fun e x r c => ⟨_, _, substituteFuel_of_le e x r c (Nat.le_refl _)⟩, by decide⟩

/-- Witness for C20 at the cascading call `substitute(%y.y, x, <y + y1>)`, run with
exactly the fuel `substituteBound`. -/
theorem substitute_terminates_witness :
    substituteBound (.lambda "y" (.var "y")) (.app (.var "y") (.var "y1")) ≤ 12 ∧
      substituteFuel 12 (.lambda "y" (.var "y")) "x" (.app (.var "y") (.var "y1"))
          NameCounter.initial
        = some (substitute (.lambda "y" (.var "y")) "x" (.app (.var "y") (.var "y1"))
          NameCounter.initial) :=
  ⟨by decide, substitute_terminates.1 _ _ _ _ 12 (by decide)⟩

end Funck
